import Mathlib

/-!
Verification of the ToC-to-segment resolution engine of the
palace-client-utils repository.

The definitions below are a shallow embedding of the Python sources:

* `src/src/palace_tools/models/internal/rwpm_audio/audio_segment.py`
  (`AudioSegment`, `ToCTrackBoundaries`, `_toc_track_boundaries`,
  `audio_segments_for_toc_entry`, `audio_segments_for_all_toc_entries`);
* `src/client_utils/models/api/rwpm_audiobook.py`
  (`ToCEntry`, `AudioTrack`, `Manifest`, `ToCEntry.from_track`,
  `Manifest.effective_toc`, `toc_in_playback_order`);
* `src/client_utils/models/internal/rwpm_audio/audiobook.py`
  (`Audiobook.pre_toc_unplayed_audio_segments`, `Audiobook.toc_total_duration`,
  the enhanced-ToC duration aggregation);
* `src/parse_rwpm_audio_manifest.py` (`get_track_sequence`).

Python conventions are modelled explicitly:

* machine integers are `Int` (Python ints are unbounded, durations and
  offsets are declared `int` in the source);
* Python floats (`actual_duration` / `end_actual`) are modelled as exact
  rationals `Rat`; no claim below depends on floating-point rounding;
* list indexing `l[i]` (which supports negative indices and raises
  `IndexError` out of range) is `pyGet`; slicing `l[a:b]` is `pySlice`;
* a raised exception (`KeyError` from a dict lookup, `IndexError`,
  `ValueError`) is modelled as the `none` result of an `Option`-valued
  function; exception class identity is not modelled.
-/

/-- Normalization of a Python index against a list of length `n`:
negative indices count from the end. -/
def pyIndex (n : Nat) (i : Int) : Int :=
  if i < 0 then (n : Int) + i else i

/-- Python list indexing `l[i]`: negative indices count from the end,
out-of-range access raises `IndexError` (modelled as `none`). -/
def pyGet (l : List α) (i : Int) : Option α :=
  if 0 ≤ pyIndex l.length i ∧ pyIndex l.length i < (l.length : Int) then
    l[(pyIndex l.length i).toNat]?
  else none

/-- Normalization of a Python slice bound against a list of length `n`:
negative bounds count from the end, all bounds are clamped to `[0, n]`. -/
def pyBound (n : Nat) (i : Int) : Nat :=
  (if i < 0 then max ((n : Int) + i) 0 else min i (n : Int)).toNat

/-- Python list slicing `l[a:b]`. -/
def pySlice (l : List α) (a b : Int) : List α :=
  (l.take (pyBound l.length b)).drop (pyBound l.length a)

/-- An audio track of the manifest's `readingOrder`
(`AudioTrack` in `rwpm_audiobook.py`).

Modelled from the spec: the `actual_duration` field (the externally
measured duration, `0` when no measurement is available) appears in the
palace_tools variant of the `AudioTrack` model, whose source file is not
part of the provided tree; per spec section 6 its absence is the sentinel
value `0`. -/
structure AudioTrack where
  title : Option String
  href : String
  duration : Int
  actual_duration : Rat
deriving Repr, DecidableEq

/-- A table-of-contents entry (`ToCEntry` in `rwpm_audiobook.py`):
an href of the form `trackHref#t=offset`, a title and child entries
(`children = None` is modelled as the empty list). -/
inductive ToCEntry where
  | mk (href : String) (title : String) (children : List ToCEntry)
deriving Repr

def ToCEntry.href : ToCEntry → String
  | .mk h _ _ => h

def ToCEntry.title : ToCEntry → String
  | .mk _ t _ => t

def ToCEntry.children : ToCEntry → List ToCEntry
  | .mk _ _ c => c

/-- `href.split("#t=")` at the character level: greedy left-to-right
split on every (non-overlapping) occurrence of the separator `#t=`,
exactly Python's `str.split` on that separator. -/
def splitOnTSep : List Char → List (List Char)
  | '#' :: 't' :: '=' :: rest => [] :: splitOnTSep rest
  | c :: rest =>
    match splitOnTSep rest with
    | p :: ps => (c :: p) :: ps
    | [] => [[c]]
  | [] => [[]]

/-- The digits of a decimal numeral (`none` when empty or when any
character is not a digit). -/
def digitsToNat (cs : List Char) : Option Nat :=
  match cs with
  | [] => none
  | cs => go cs 0
where
  go : List Char → Nat → Option Nat
    | [], acc => some acc
    | c :: cs, acc => if c.isDigit then go cs (acc * 10 + (c.toNat - 48)) else none

/-- Python's `int(...)` on the offset string: an optional sign followed by
digits (Python also tolerates surrounding whitespace and underscores,
which never occur in manifest fragment offsets and are not modelled). -/
def parsePyInt (cs : List Char) : Option Int :=
  match cs with
  | '-' :: rest => (digitsToNat rest).map (fun n => -(n : Int))
  | '+' :: rest => (digitsToNat rest).map (fun n => (n : Int))
  | _ => (digitsToNat cs).map (fun n => (n : Int))

/-- The computed `track_href` field: the part of `href` before `#t=`
(`self.href.split("#t=")` in the pydantic validator; the validator
rejects hrefs that do not split into exactly two parts, so the default
branch is unreachable for parsed manifests). -/
def ToCEntry.track_href (e : ToCEntry) : String :=
  match splitOnTSep e.href.data with
  | [h, _] => String.mk h
  | _ => ""

/-- The computed `track_offset` field: `int(offset)` on the part of `href`
after `#t=` (unreachable defaults as in `ToCEntry.track_href`). -/
def ToCEntry.track_offset (e : ToCEntry) : Int :=
  match splitOnTSep e.href.data with
  | [_, o] => (parsePyInt o).getD 0
  | _ => 0

/-- `ToCEntry.from_track`: synthesize a ToC entry pointing at the start of
a track; the title is the track's own title unless that is falsy
(`None` or the empty string), in which case `default_title` is used
(Python's `track.title or default_title`). -/
def ToCEntry.from_track (track : AudioTrack) (default_title : String) : ToCEntry :=
  .mk (track.href ++ "#t=0")
    (match track.title with
      | some t => if t = "" then default_title else t
      | none => default_title)
    []

mutual

/-- `ToCEntry.toc_in_playback_order`: pre-order traversal (the node, then
each child subtree in order). -/
def ToCEntry.toc_in_playback_order : ToCEntry → List ToCEntry
  | .mk href title children => .mk href title children :: tocListInPlaybackOrder children

/-- Pre-order traversal of a forest of ToC entries, in order. -/
def tocListInPlaybackOrder : List ToCEntry → List ToCEntry
  | [] => []
  | e :: es => e.toc_in_playback_order ++ tocListInPlaybackOrder es

end

/-- The audiobook manifest (`Manifest` in `rwpm_audiobook.py`); only the
fields consumed by the resolution engine are modelled (`@context` and
`metadata` never influence it). `toc = none` models an absent `toc`. -/
structure Manifest where
  reading_order : List AudioTrack
  toc : Option (List ToCEntry)

/-- `Manifest.effective_toc`: `self.toc or [synthesized]` — the explicit
ToC when it is present and non-empty (both `None` and `[]` are falsy),
otherwise one entry per track at offset 0 titled `Track N` (1-based) by
default. -/
def Manifest.effective_toc (m : Manifest) : List ToCEntry :=
  match m.toc with
  | some (e :: es) => e :: es
  | _ => m.reading_order.enum.map
      (fun p => ToCEntry.from_track p.2 ("Track " ++ toString (p.1 + 1)))

/-- `Manifest.toc_in_playback_order`: pre-order flatten of the effective
ToC. -/
def Manifest.toc_in_playback_order (m : Manifest) : List ToCEntry :=
  tocListInPlaybackOrder m.effective_toc

/-- An audio segment (`AudioSegment` in `audio_segment.py`): a contiguous
`(track, start, end)` range; `end_actual` is the parallel boundary on the
measured timeline. -/
structure AudioSegment where
  track : AudioTrack
  start : Int
  end_ : Int
  end_actual : Rat
deriving Repr, DecidableEq

/-- The `duration` field computed in `AudioSegment.__post_init__`. -/
def AudioSegment.duration (s : AudioSegment) : Int := s.end_ - s.start

/-- The `actual_duration` field computed in `AudioSegment.__post_init__`. -/
def AudioSegment.actual_duration (s : AudioSegment) : Rat :=
  s.end_actual - (s.start : Rat)

/-- `ToCTrackBoundaries` (in `audio_segment.py`): the resolved span of one
ToC entry. -/
structure ToCTrackBoundaries where
  toc_entry : ToCEntry
  first_track_index : Int
  first_track_start_offset : Int
  last_track_index : Int
  last_track_end_offset : Int
  last_track_end_actual_offset : Rat

/-- `ToCAudioSegmentSequence` (in `audio_segment.py`). -/
structure ToCAudioSegmentSequence where
  toc_entry : ToCEntry
  audio_segments : List AudioSegment

/-- The dict `track_index_by_href = {t.href: i for i, t in enumerate(all_tracks)}`
looked up at one key: a dict comprehension keeps the LAST index for a
duplicated href, so this returns the last position whose track has the
given href, and `none` (`KeyError`) when no track has it. -/
def trackIndexByHref : List AudioTrack → String → Option Int
  | [], _ => none
  | t :: ts, href =>
    match trackIndexByHref ts href with
    | some i => some (i + 1)
    | none => if t.href = href then some 0 else none

/-- The `if / elif / else` block of `_toc_track_boundaries` (in
`audio_segment.py`) computing the end-track index and offsets. The three
branches, in source order: no next entry → end at the last track's full
duration; same track or next offset nonzero → end at the next entry's
start; otherwise → end at the full duration of the track before the next
entry's track. -/
def _toc_end_boundaries (entry : ToCEntry) (next_entry : Option ToCEntry)
    (all_tracks : List AudioTrack) : Option (Int × Int × Rat) :=
  match next_entry with
  | none => do
    let i : Int := (all_tracks.length : Int) - 1
    let t ← pyGet all_tracks i
    pure (i, t.duration, t.actual_duration)
  | some nxt =>
    if entry.track_href = nxt.track_href ∨ nxt.track_offset ≠ 0 then do
      let i ← trackIndexByHref all_tracks nxt.track_href
      pure (i, nxt.track_offset, (nxt.track_offset : Rat))
    else do
      let i ← trackIndexByHref all_tracks nxt.track_href
      let t ← pyGet all_tracks (i - 1)
      pure (i - 1, t.duration, t.actual_duration)

/-- `_toc_track_boundaries` (in `audio_segment.py`): the start and end
track indices and offsets for the audio segments of the given ToC entry;
the end boundary is computed by `_toc_end_boundaries`, then the entry's
own track is looked up. -/
def _toc_track_boundaries (entry : ToCEntry) (next_entry : Option ToCEntry)
    (all_tracks : List AudioTrack) : Option ToCTrackBoundaries := do
  let (end_track_index, end_track_offset, end_track_actual_offset) ←
    _toc_end_boundaries entry next_entry all_tracks
  let first_index ← trackIndexByHref all_tracks entry.track_href
  pure ⟨entry, first_index, entry.track_offset,
    end_track_index, end_track_offset, end_track_actual_offset⟩

/-- The segment-assembly part of `audio_segments_for_toc_entry` (the code
after the `_toc_track_boundaries` call): always a first segment, full
intermediate segments for the slice strictly between the first and last
track, and a last segment only when the first and last tracks differ. -/
def assembleAudioSegments (boundaries : ToCTrackBoundaries)
    (tracks : List AudioTrack) : Option ToCAudioSegmentSequence := do
  let first_track ← pyGet tracks boundaries.first_track_index
  let first_segment : AudioSegment :=
    ⟨first_track, boundaries.first_track_start_offset,
      if boundaries.first_track_index = boundaries.last_track_index then
        boundaries.last_track_end_offset
      else first_track.duration,
      if boundaries.first_track_index = boundaries.last_track_index then
        boundaries.last_track_end_actual_offset
      else first_track.actual_duration⟩
  let last_segment ←
    if boundaries.first_track_index ≠ boundaries.last_track_index then do
      let t ← pyGet tracks boundaries.last_track_index
      pure [(⟨t, 0, boundaries.last_track_end_offset,
        boundaries.last_track_end_actual_offset⟩ : AudioSegment)]
    else pure []
  let intermediate_tracks :=
    pySlice tracks (boundaries.first_track_index + 1) boundaries.last_track_index
  let intermediate_tracks_segments := intermediate_tracks.map
    (fun track => (⟨track, 0, track.duration, track.actual_duration⟩ : AudioSegment))
  pure ⟨boundaries.toc_entry,
    first_segment :: intermediate_tracks_segments ++ last_segment⟩

/-- `audio_segments_for_toc_entry` (in `audio_segment.py`). -/
def audio_segments_for_toc_entry (entry : ToCEntry) (next_entry : Option ToCEntry)
    (tracks : List AudioTrack) : Option ToCAudioSegmentSequence :=
  (_toc_track_boundaries entry next_entry tracks).bind
    (fun b => assembleAudioSegments b tracks)

/-- The pairs produced by `sliding_window(entries, 2, nulls=1)` over a
non-empty sequence: each entry with its successor, the final entry with
`None`. -/
def entryPairs : List ToCEntry → List (ToCEntry × Option ToCEntry)
  | [] => []
  | [e] => [(e, none)]
  | e :: f :: rest => (e, some f) :: entryPairs (f :: rest)

/-- `audio_segments_for_all_toc_entries` (in `audio_segment.py`), with the
lazy generator consumed eagerly: any per-entry failure fails the whole
computation. On an empty entry sequence `sliding_window(.., 2, nulls=1)`
yields a malformed 1-tuple and the `for entry, next_entry in ...` loop
raises `ValueError`, modelled as `none`. -/
def audio_segments_for_all_toc_entries (all_toc_entries : List ToCEntry)
    (all_tracks : List AudioTrack) : Option (List ToCAudioSegmentSequence) :=
  match all_toc_entries with
  | [] => none
  | es => (entryPairs es).mapM
      (fun p => audio_segments_for_toc_entry p.1 p.2 all_tracks)

/-- The `Audiobook` facade (`audiobook.py`). -/
structure Audiobook where
  manifest : Manifest

/-- `Audiobook.pre_toc_unplayed_audio_segments`: audio segments that
precede the first ToC segment; empty exactly when the first effective-ToC
entry's href is (the string) `track0.href + "#t=0"`. An empty track list
makes `reading_order[0]` (and then `effective_toc[0]`) raise `IndexError`. -/
def Audiobook.pre_toc_unplayed_audio_segments (b : Audiobook) :
    Option (List AudioSegment) :=
  match b.manifest.reading_order.head? with
  | none => none
  | some track0 =>
    let toc_from_first_track := ToCEntry.from_track track0 "Track"
    match b.manifest.effective_toc.head? with
    | none => none
    | some first_effective_toc =>
      if first_effective_toc.href = toc_from_first_track.href then some []
      else
        (audio_segments_for_toc_entry toc_from_first_track
          (some first_effective_toc) b.manifest.reading_order).map
          (fun s => s.audio_segments)

/-- `Audiobook.toc_total_duration`: the sum, over the flattened enhanced
ToC, of each entry's own `duration` (itself the sum of the entry's own
segments' durations). The identity-keyed cache `segments_by_toc_id` is
modelled positionally: each flattened entry is paired with its successor
in playback order, exactly the pairs the cache is built from. When the
effective ToC is empty, `generate_enhanced_toc` never touches the cache
and the sum is 0; otherwise every entry consults it, so any resolution
failure propagates. -/
def Audiobook.toc_total_duration (b : Audiobook) : Option Int :=
  match b.manifest.toc_in_playback_order with
  | [] => some 0
  | es =>
    ((entryPairs es).mapM
      (fun p => audio_segments_for_toc_entry p.1 p.2 b.manifest.reading_order)).map
      (fun seqs =>
        (seqs.map (fun s => (s.audio_segments.map AudioSegment.duration).sum)).sum)

/-- The `TrackSegment` dataclass of `parse_rwpm_audio_manifest.py` (the
`hhmmss` field is pure formatting and is not modelled). -/
structure TrackSegment where
  track : AudioTrack
  start : Int
  end_ : Int
deriving Repr, DecidableEq

/-- The `duration` field computed in `TrackSegment.__post_init__`. -/
def TrackSegment.duration (s : TrackSegment) : Int := s.end_ - s.start

/-- The branch chain of `get_track_sequence` (in
`parse_rwpm_audio_manifest.py`) computing `(entry_last_track,
entry_end_offset)`. Its rule order differs from `_toc_end_boundaries`:
same track first, then next offset zero, then the different-track
nonzero-offset case. -/
def get_track_sequence_end (entry : ToCEntry) (next_entry : Option ToCEntry)
    (reading_order : List AudioTrack) (entry_first_track : Int) :
    Option (Int × Int) :=
  match next_entry with
  | none => do
    let i : Int := (reading_order.length : Int) - 1
    let t ← pyGet reading_order i
    pure (i, t.duration)
  | some nxt =>
    if entry.track_href = nxt.track_href then
      pure (entry_first_track, nxt.track_offset)
    else if nxt.track_offset = 0 then do
      let i ← trackIndexByHref reading_order nxt.track_href
      let t ← pyGet reading_order (i - 1)
      pure (i - 1, t.duration)
    else do
      let i ← trackIndexByHref reading_order nxt.track_href
      pure (i, nxt.track_offset)

/-- The segment-assembly part of `get_track_sequence` (the code from
`track_1_segment` onward): first segment, full middle segments for the
slice strictly between, and a last segment only when the first and last
tracks differ. -/
def get_track_sequence_segments (reading_order : List AudioTrack)
    (entry_first_track entry_start_offset entry_last_track
      entry_end_offset : Int) : Option (List TrackSegment) := do
  let track_1 ← pyGet reading_order entry_first_track
  let track_1_segment : TrackSegment :=
    ⟨track_1, entry_start_offset,
      if entry_first_track = entry_last_track then entry_end_offset
      else track_1.duration⟩
  let track_n_segment ←
    if entry_first_track = entry_last_track then pure []
    else do
      let t ← pyGet reading_order entry_last_track
      pure [(⟨t, 0, entry_end_offset⟩ : TrackSegment)]
  let middle_tracks :=
    pySlice reading_order (entry_first_track + 1) entry_last_track
  let middle_tracks_segments := middle_tracks.map
    (fun track => (⟨track, 0, track.duration⟩ : TrackSegment))
  pure (track_1_segment :: middle_tracks_segments ++ track_n_segment)

/-- `get_track_sequence` (in `parse_rwpm_audio_manifest.py`), with the
`(entry, next_entry)` pair passed directly instead of being re-derived
from `complete_toc[index + 1]`. -/
def get_track_sequence (entry : ToCEntry) (next_entry : Option ToCEntry)
    (reading_order : List AudioTrack) : Option (List TrackSegment) := do
  let entry_first_track ← trackIndexByHref reading_order entry.track_href
  let entry_start_offset := entry.track_offset
  let (entry_last_track, entry_end_offset) ←
    get_track_sequence_end entry next_entry reading_order entry_first_track
  get_track_sequence_segments reading_order entry_first_track
    entry_start_offset entry_last_track entry_end_offset

/-! ## Concrete example data used in witnesses and counterexamples -/

/-- Example track `a`, declared duration 10, no title, no measurement. -/
def exTrackA : AudioTrack := ⟨none, "a", 10, 0⟩

/-- Example track `b`, declared duration 20. -/
def exTrackB : AudioTrack := ⟨none, "b", 20, 0⟩

/-- Example track `c`, declared duration 15. -/
def exTrackC : AudioTrack := ⟨none, "c", 15, 0⟩

/-- Example track `d`, declared duration 5. -/
def exTrackD : AudioTrack := ⟨none, "d", 5, 0⟩

/-- Example entry starting at `a#t=8`. -/
def exEntryA8 : ToCEntry := .mk "a#t=8" "A" []

/-- Example entry starting at `b#t=0`. -/
def exEntryB0 : ToCEntry := .mk "b#t=0" "B" []

/-- Example entry whose track reference `zz` occurs in no track list used
below. -/
def exEntryZZ : ToCEntry := .mk "zz#t=0" "X" []

/-- Example manifest: two tracks, a nested explicit ToC. -/
def exManifest1 : Manifest :=
  ⟨[exTrackA, exTrackB],
    some [.mk "a#t=0" "Chapter 1" [.mk "a#t=4" "Section 1.1" []],
      .mk "b#t=5" "Chapter 2" []]⟩

/-- Example track of duration 30. -/
def exTrack30 : AudioTrack := ⟨none, "t0", 30, 0⟩

/-- Example manifest with leading unplayed audio: track 0 has duration 30
and the single ToC entry references `t0#t=5`. -/
def exManifestLead : Manifest := ⟨[exTrack30], some [.mk "t0#t=5" "Chapter 1" []]⟩

/-- Example manifest with 4 tracks of durations 10, 20, 15, 5 and no
explicit ToC. -/
def exManifest4 : Manifest := ⟨[exTrackA, exTrackB, exTrackC, exTrackD], none⟩

/-- Example manifest with zero tracks and no ToC. -/
def exManifest0 : Manifest := ⟨[], none⟩

/-! ## Basic facts about the lookup and indexing helpers -/

/-- The sum of a list of segment durations for one resolved entry. -/
def seqDuration (s : ToCAudioSegmentSequence) : Int :=
  (s.audio_segments.map AudioSegment.duration).sum

/-- The sum of the declared durations of all tracks. -/
def totalTrackDuration (tracks : List AudioTrack) : Int :=
  (tracks.map AudioTrack.duration).sum

/-- Declared duration of the prefix of `k` tracks. -/
def cumDuration (tracks : List AudioTrack) (k : Nat) : Int :=
  ((tracks.take k).map AudioTrack.duration).sum

/-- Absolute start position (in declared seconds from the start of the
book) of a ToC entry: the durations of all tracks before its track, plus
its in-track offset. -/
def absPos (tracks : List AudioTrack) (e : ToCEntry) : Int :=
  cumDuration tracks ((trackIndexByHref tracks e.track_href).getD 0).toNat
    + e.track_offset

/-- Lexicographic comparison of entry start positions (track index first,
then in-track offset). -/
def entryPosLE (tracks : List AudioTrack) (e f : ToCEntry) : Prop :=
  (trackIndexByHref tracks e.track_href).getD 0
      < (trackIndexByHref tracks f.track_href).getD 0
    ∨ ((trackIndexByHref tracks e.track_href).getD 0
          = (trackIndexByHref tracks f.track_href).getD 0
        ∧ e.track_offset ≤ f.track_offset)

instance (tracks : List AudioTrack) (e f : ToCEntry) :
    Decidable (entryPosLE tracks e f) :=
  inferInstanceAs (Decidable (((trackIndexByHref tracks e.track_href).getD 0
      < (trackIndexByHref tracks f.track_href).getD 0)
    ∨ ((trackIndexByHref tracks e.track_href).getD 0
          = (trackIndexByHref tracks f.track_href).getD 0
        ∧ e.track_offset ≤ f.track_offset)))

/-- The entries' start positions are non-decreasing along the list
(consecutive pairs compare `entryPosLE`); structurally recursive so that
it evaluates on concrete manifests. -/
def entriesNonDecreasing (tracks : List AudioTrack) : List ToCEntry → Prop
  | [] => True
  | [_] => True
  | e :: f :: rest => entryPosLE tracks e f ∧ entriesNonDecreasing tracks (f :: rest)

instance decEntriesNonDecreasing (tracks : List AudioTrack) :
    (l : List ToCEntry) → Decidable (entriesNonDecreasing tracks l)
  | [] => .isTrue trivial
  | [_] => .isTrue trivial
  | _ :: f :: rest =>
    @instDecidableAnd _ _ _ (decEntriesNonDecreasing tracks (f :: rest))

theorem trackIndexByHref_spec {ts : List AudioTrack} {h : String} {i : Int}
    (hs : trackIndexByHref ts h = some i) :
    0 ≤ i ∧ i.toNat < ts.length ∧ ∃ t, ts[i.toNat]? = some t ∧ t.href = h := by
  induction ts generalizing i with
  | nil => simp [trackIndexByHref] at hs
  | cons x xs ih =>
    rw [trackIndexByHref] at hs
    cases hxs : trackIndexByHref xs h with
    | some j =>
      rw [hxs] at hs
      simp only [Option.some.injEq] at hs
      obtain ⟨hj0, hjl, t, hget, hhref⟩ := ih hxs
      have htn : i.toNat = j.toNat + 1 := by omega
      refine ⟨by omega, ?_, t, ?_, hhref⟩
      · rw [htn]; simp only [List.length_cons]; omega
      · rw [htn]; simpa using hget
    | none =>
      rw [hxs] at hs
      by_cases hx : x.href = h
      · rw [if_pos hx] at hs
        simp only [Option.some.injEq] at hs
        refine ⟨by omega, by simp; omega, x, ?_, hx⟩
        have : i.toNat = 0 := by omega
        rw [this]; simp
      · rw [if_neg hx] at hs
        exact absurd hs (by simp)

theorem trackIndexByHref_isSome_of_mem {ts : List AudioTrack} {t : AudioTrack}
    (hm : t ∈ ts) : ∃ i, trackIndexByHref ts t.href = some i := by
  induction ts with
  | nil => simp at hm
  | cons x xs ih =>
    rw [trackIndexByHref]
    rcases List.mem_cons.mp hm with rfl | hm'
    · cases hxs : trackIndexByHref xs t.href with
      | some j => exact ⟨j + 1, rfl⟩
      | none => exact ⟨0, by simp⟩
    · obtain ⟨j, hj⟩ := ih hm'
      rw [hj]
      exact ⟨j + 1, rfl⟩

theorem trackIndexByHref_eq_none {ts : List AudioTrack} {h : String} :
    trackIndexByHref ts h = none ↔ ∀ t ∈ ts, t.href ≠ h := by
  induction ts with
  | nil => simp [trackIndexByHref]
  | cons x xs ih =>
    rw [trackIndexByHref]
    cases hxs : trackIndexByHref xs h with
    | some j =>
      simp only [hxs]
      constructor
      · intro hc; exact absurd hc (by simp)
      · intro hall
        have hn : trackIndexByHref xs h = none :=
          ih.mpr (fun t ht => hall t (List.mem_cons_of_mem x ht))
        rw [hn] at hxs; exact absurd hxs (by simp)
    | none =>
      simp only [hxs]
      by_cases hx : x.href = h
      · rw [if_pos hx]
        constructor
        · intro hc; exact absurd hc (by simp)
        · intro hall; exact absurd hx (hall x (List.mem_cons_self x xs))
      · rw [if_neg hx]
        constructor
        · intro _ t ht
          rcases List.mem_cons.mp ht with rfl | ht'
          · exact hx
          · exact (ih.mp hxs) t ht'
        · intro _; rfl

theorem trackIndexByHref_nodup {ts : List AudioTrack} {k : Nat} {t : AudioTrack}
    (hnd : (ts.map AudioTrack.href).Nodup) (hget : ts[k]? = some t) :
    trackIndexByHref ts t.href = some (k : Int) := by
  induction ts generalizing k with
  | nil => simp at hget
  | cons x xs ih =>
    rw [List.map_cons, List.nodup_cons] at hnd
    obtain ⟨hx_notin, hnd'⟩ := hnd
    rw [trackIndexByHref]
    cases k with
    | zero =>
      simp only [List.getElem?_cons_zero, Option.some.injEq] at hget
      subst hget
      cases hxs : trackIndexByHref xs x.href with
      | some j =>
        obtain ⟨_, hjl, u, huget, huh⟩ := trackIndexByHref_spec hxs
        exact absurd (huh ▸ List.mem_map_of_mem AudioTrack.href
          (List.getElem?_mem huget)) hx_notin
      | none =>
        simp [hxs]
    | succ k' =>
      simp only [List.getElem?_cons_succ] at hget
      have hih := ih hnd' hget
      simp only [hih, Option.some.injEq]
      omega

theorem pyGet_eq {l : List α} {i : Int} (h0 : 0 ≤ i) (hl : i < l.length) :
    pyGet l i = l[i.toNat]? := by
  unfold pyGet pyIndex
  rw [if_neg (by omega : ¬ i < 0)]
  rw [if_pos ⟨h0, hl⟩]

theorem pyGet_isSome {l : List α} {i : Int} (h0 : 0 ≤ i) (hl : i < l.length) :
    ∃ a, pyGet l i = some a := by
  rw [pyGet_eq h0 hl]
  exact ⟨l[i.toNat], List.getElem?_eq_getElem (by omega)⟩

theorem pySlice_eq {l : List α} {a b : Int} (h0 : 0 ≤ a) (ha : a ≤ l.length)
    (hb0 : 0 ≤ b) (hb : b ≤ l.length) :
    pySlice l a b = (l.drop a.toNat).take (b.toNat - a.toNat) := by
  unfold pySlice pyBound
  rw [if_neg (by omega : ¬ a < 0), if_neg (by omega : ¬ b < 0)]
  have hna : (min a (l.length : Int)).toNat = a.toNat := by omega
  have hnb : (min b (l.length : Int)).toNat = b.toNat := by omega
  rw [hna, hnb, List.drop_take]

theorem cumDuration_succ {ts : List AudioTrack} {k : Nat} {t : AudioTrack}
    (h : ts[k]? = some t) :
    cumDuration ts (k + 1) = cumDuration ts k + t.duration := by
  unfold cumDuration
  rw [List.take_succ, h]
  simp

theorem cumDuration_slice {ts : List AudioTrack} {a b : Nat}
    (hab : a ≤ b) :
    (((ts.drop a).take (b - a)).map AudioTrack.duration).sum
      = cumDuration ts b - cumDuration ts a := by
  unfold cumDuration
  have : ts.take b = ts.take a ++ (ts.drop a).take (b - a) := by
    rw [← List.take_add]
    congr 1
    omega
  rw [this]
  simp

theorem cumDuration_length {ts : List AudioTrack} :
    cumDuration ts ts.length = totalTrackDuration ts := by
  unfold cumDuration totalTrackDuration
  rw [List.take_length]

/-! ## Case analysis of the boundary resolver -/

theorem tb_none_eq {tracks : List AudioTrack} {e : ToCEntry} {ie : Int} {lt : AudioTrack}
    (hE : trackIndexByHref tracks e.track_href = some ie)
    (hlt : tracks[tracks.length - 1]? = some lt) :
    _toc_track_boundaries e none tracks
      = some ⟨e, ie, e.track_offset, (tracks.length : Int) - 1,
          lt.duration, lt.actual_duration⟩ := by
  have hlen : 1 ≤ tracks.length := by
    cases tracks with
    | nil => simp at hlt
    | cons x xs => simp
  have h0 : (0:Int) ≤ (tracks.length : Int) - 1 := by omega
  have h1 : (tracks.length : Int) - 1 < (tracks.length : Int) := by omega
  have htn : ((tracks.length : Int) - 1).toNat = tracks.length - 1 := by omega
  have hend : _toc_end_boundaries e none tracks
      = some ((tracks.length : Int) - 1, lt.duration, lt.actual_duration) := by
    unfold _toc_end_boundaries
    simp only [pyGet_eq h0 h1, htn, hlt]
    rfl
  unfold _toc_track_boundaries
  simp [hend, hE]

theorem tb_next_eq {tracks : List AudioTrack} {e f : ToCEntry} {ie jf : Int}
    (hE : trackIndexByHref tracks e.track_href = some ie)
    (hF : trackIndexByHref tracks f.track_href = some jf)
    (hc : e.track_href = f.track_href ∨ f.track_offset ≠ 0) :
    _toc_track_boundaries e (some f) tracks
      = some ⟨e, ie, e.track_offset, jf, f.track_offset, (f.track_offset : Rat)⟩ := by
  have hend : _toc_end_boundaries e (some f) tracks
      = some (jf, f.track_offset, (f.track_offset : Rat)) := by
    unfold _toc_end_boundaries
    simp only [if_pos hc, hF]
    rfl
  unfold _toc_track_boundaries
  simp [hend, hE]

theorem tb_prev_eq {tracks : List AudioTrack} {e f : ToCEntry} {ie jf : Int}
    {pt : AudioTrack}
    (hE : trackIndexByHref tracks e.track_href = some ie)
    (hF : trackIndexByHref tracks f.track_href = some jf)
    (hne : ¬ (e.track_href = f.track_href ∨ f.track_offset ≠ 0))
    (h1 : 1 ≤ jf)
    (hpt : tracks[(jf - 1).toNat]? = some pt) :
    _toc_track_boundaries e (some f) tracks
      = some ⟨e, ie, e.track_offset, jf - 1, pt.duration, pt.actual_duration⟩ := by
  have hjl := (trackIndexByHref_spec hF).2.1
  have h0 : (0:Int) ≤ jf - 1 := by omega
  have hlt : jf - 1 < (tracks.length : Int) := by
    have := (trackIndexByHref_spec hF).1
    omega
  have hpt' : tracks[jf.toNat - 1]? = some pt := by
    have hn : (jf - 1).toNat = jf.toNat - 1 := by omega
    rw [← hn]; exact hpt
  have hend : _toc_end_boundaries e (some f) tracks
      = some (jf - 1, pt.duration, pt.actual_duration) := by
    unfold _toc_end_boundaries
    simp [if_neg hne, hF, pyGet_eq h0 hlt, hpt']
  unfold _toc_track_boundaries
  simp [hend, hE]

theorem tb_missing {tracks : List AudioTrack} {e : ToCEntry} {next_entry : Option ToCEntry}
    (hE : trackIndexByHref tracks e.track_href = none) :
    _toc_track_boundaries e next_entry tracks = none := by
  unfold _toc_track_boundaries
  cases hend : _toc_end_boundaries e next_entry tracks with
  | none => simp [hend]
  | some y => simp [hend, hE]

theorem sum_full_track_segments (l : List AudioTrack) :
    ((l.map (fun t => (⟨t, 0, t.duration, t.actual_duration⟩ : AudioSegment))).map
      AudioSegment.duration).sum = (l.map AudioTrack.duration).sum := by
  induction l with
  | nil => simp
  | cons x xs ih =>
    simp only [List.map_cons, List.sum_cons, ih, AudioSegment.duration]
    omega

/-! ## Telescoping duration sums for one resolved entry -/

theorem assemble_eq {tracks : List AudioTrack} {entry : ToCEntry}
    {fi fo li lo : Int} {loA : Rat} {ft lt : AudioTrack}
    (h0 : 0 ≤ fi) (hfl : fi ≤ li) (hll : li < (tracks.length : Int))
    (hft : tracks[fi.toNat]? = some ft) (hlt : tracks[li.toNat]? = some lt) :
    assembleAudioSegments ⟨entry, fi, fo, li, lo, loA⟩ tracks = some ⟨entry,
      (⟨ft, fo, (if fi = li then lo else ft.duration),
        (if fi = li then loA else ft.actual_duration)⟩ : AudioSegment) ::
      ((tracks.drop (fi.toNat + 1)).take (li.toNat - (fi.toNat + 1))).map
        (fun t => (⟨t, 0, t.duration, t.actual_duration⟩ : AudioSegment)) ++
      (if fi = li then []
        else [(⟨lt, 0, lo, loA⟩ : AudioSegment)])⟩ := by
  have hfll : fi < (tracks.length : Int) := lt_of_le_of_lt hfl hll
  have hl0 : 0 ≤ li := le_trans h0 hfl
  have hslice : pySlice tracks (fi + 1) li
      = (tracks.drop (fi.toNat + 1)).take (li.toNat - (fi.toNat + 1)) := by
    have hps := pySlice_eq (l := tracks) (a := fi + 1) (b := li)
      (by omega) (by omega) hl0 (by omega)
    have hn : (fi + 1).toNat = fi.toNat + 1 := by omega
    rw [hps, hn]
  unfold assembleAudioSegments
  by_cases heq : fi = li
  · simp [pyGet_eq h0 hfll, hft,
      if_neg (by simp [heq] : ¬ fi ≠ li), hslice, if_pos heq]
  · simp [pyGet_eq h0 hfll, hft, if_pos heq, pyGet_eq hl0 hll, hlt, hslice,
      if_neg heq]

theorem absPos_eq {tracks : List AudioTrack} {e : ToCEntry} {ie : Int}
    (hE : trackIndexByHref tracks e.track_href = some ie) :
    absPos tracks e = cumDuration tracks ie.toNat + e.track_offset := by
  unfold absPos
  rw [hE]
  rfl

theorem asfte_next_sum {tracks : List AudioTrack} {e f : ToCEntry} {ie jf : Int}
    (hE : trackIndexByHref tracks e.track_href = some ie)
    (hF : trackIndexByHref tracks f.track_href = some jf)
    (hpos : ie < jf ∨ (ie = jf ∧ e.track_offset ≤ f.track_offset)) :
    ∃ r, audio_segments_for_toc_entry e (some f) tracks = some r ∧
      seqDuration r = absPos tracks f - absPos tracks e := by
  obtain ⟨hie0, hiel, ft, hft, hfh⟩ := trackIndexByHref_spec hE
  obtain ⟨hjf0, hjfl, gt, hgt, hgh⟩ := trackIndexByHref_spec hF
  have habsE := absPos_eq hE
  have habsF := absPos_eq hF
  have hle : ie ≤ jf := by rcases hpos with h | ⟨h, _⟩ <;> omega
  by_cases hc : e.track_href = f.track_href ∨ f.track_offset ≠ 0
  · have htb := tb_next_eq hE hF hc
    have hasm := @assemble_eq tracks e ie e.track_offset jf f.track_offset
      ((f.track_offset : Rat)) ft gt hie0 hle (by omega) hft hgt
    refine ⟨_, Eq.trans (by unfold audio_segments_for_toc_entry; rw [htb]; rfl) hasm, ?_⟩
    by_cases heq : ie = jf
    · have hmid0 : jf.toNat - (ie.toNat + 1) = 0 := by omega
      have hcum : cumDuration tracks ie.toNat = cumDuration tracks jf.toNat := by
        rw [heq]
      simp only [seqDuration, hmid0, List.take_zero, List.map_nil, List.nil_append,
        if_pos heq, List.map_cons, List.sum_cons, List.append_nil,
        AudioSegment.duration, List.sum_nil]
      omega
    · have hslice := @cumDuration_slice tracks (ie.toNat + 1) jf.toNat (by omega)
      have hsucc := cumDuration_succ hft
      simp only [seqDuration, if_neg heq, List.map_cons, List.sum_cons,
        List.map_append, List.sum_append, sum_full_track_segments, hslice,
        AudioSegment.duration, List.map_nil, List.sum_nil]
      omega
  · push_neg at hc
    obtain ⟨hch, hcz⟩ := hc
    have hne : ie ≠ jf := by
      intro h
      rw [h] at hft
      rw [hft] at hgt
      have hfg : ft = gt := by simpa using hgt
      exact hch (hfh ▸ hfg ▸ hgh)
    have hltj : ie < jf := by omega
    have h1 : 1 ≤ jf := by omega
    have hptn : (jf - 1).toNat < tracks.length := by omega
    have hpt : tracks[(jf - 1).toNat]? = some tracks[(jf - 1).toNat] :=
      List.getElem?_eq_getElem hptn
    have htb := tb_prev_eq hE hF (by push_neg; exact ⟨hch, hcz⟩) h1 hpt
    have hasm := @assemble_eq tracks e ie e.track_offset (jf - 1)
      ((tracks[(jf - 1).toNat]).duration)
      ((tracks[(jf - 1).toNat]).actual_duration)
      ft (tracks[(jf - 1).toNat])
      hie0 (by omega) (by omega) hft hpt
    have hsuccp : cumDuration tracks ((jf - 1).toNat + 1)
        = cumDuration tracks (jf - 1).toNat + (tracks[(jf - 1).toNat]).duration :=
      cumDuration_succ hpt
    have hjn : (jf - 1).toNat + 1 = jf.toNat := by omega
    rw [hjn] at hsuccp
    refine ⟨_, Eq.trans (by unfold audio_segments_for_toc_entry; rw [htb]; rfl) hasm, ?_⟩
    by_cases heq : ie = jf - 1
    · have hmid0 : (jf - 1).toNat - (ie.toNat + 1) = 0 := by omega
      have hcum : cumDuration tracks ie.toNat
          = cumDuration tracks (jf - 1).toNat := by
        have h' : ie.toNat = (jf - 1).toNat := by omega
        rw [h']
      simp only [seqDuration, hmid0, List.take_zero, List.map_nil, List.nil_append,
        if_pos heq, List.map_cons, List.sum_cons, List.append_nil,
        AudioSegment.duration, List.sum_nil]
      omega
    · have hslice := @cumDuration_slice tracks (ie.toNat + 1) ((jf - 1).toNat) (by omega)
      have hsucc := cumDuration_succ hft
      simp only [seqDuration, if_neg heq, List.map_cons, List.sum_cons,
        List.map_append, List.sum_append, sum_full_track_segments, hslice,
        AudioSegment.duration, List.map_nil, List.sum_nil]
      omega

theorem asfte_last_sum {tracks : List AudioTrack} {e : ToCEntry} {ie : Int}
    (hE : trackIndexByHref tracks e.track_href = some ie) :
    ∃ r, audio_segments_for_toc_entry e none tracks = some r ∧
      seqDuration r = totalTrackDuration tracks - absPos tracks e := by
  obtain ⟨hie0, hiel, ft, hft, hfh⟩ := trackIndexByHref_spec hE
  have habsE := absPos_eq hE
  have hlen : 1 ≤ tracks.length := by omega
  have hlastn : tracks.length - 1 < tracks.length := by omega
  have hlast : tracks[tracks.length - 1]? = some tracks[tracks.length - 1] :=
    List.getElem?_eq_getElem hlastn
  have htb := tb_none_eq hE hlast
  have hlm : ((tracks.length : Int) - 1).toNat = tracks.length - 1 := by omega
  have hlast' : tracks[((tracks.length : Int) - 1).toNat]?
      = some tracks[tracks.length - 1] := by rw [hlm]; exact hlast
  have hasm := @assemble_eq tracks e ie e.track_offset
    ((tracks.length : Int) - 1)
    ((tracks[tracks.length - 1]).duration)
    ((tracks[tracks.length - 1]).actual_duration)
    ft (tracks[tracks.length - 1])
    hie0 (by omega) (by omega) hft hlast'
  have hsuccl : cumDuration tracks ((tracks.length - 1) + 1)
      = cumDuration tracks (tracks.length - 1)
        + (tracks[tracks.length - 1]).duration :=
    cumDuration_succ hlast
  have hln : (tracks.length - 1) + 1 = tracks.length := by omega
  rw [hln] at hsuccl
  have htot : cumDuration tracks tracks.length = totalTrackDuration tracks :=
    cumDuration_length
  refine ⟨_, Eq.trans (by unfold audio_segments_for_toc_entry; rw [htb]; rfl) hasm, ?_⟩
  rw [hlm]
  by_cases heq : ie = (tracks.length : Int) - 1
  · have hmid0 : tracks.length - 1 - (ie.toNat + 1) = 0 := by omega
    have hcum : cumDuration tracks ie.toNat
        = cumDuration tracks (tracks.length - 1) := by
      have h' : ie.toNat = tracks.length - 1 := by omega
      rw [h']
    simp only [seqDuration, hmid0, List.take_zero, List.map_nil, List.nil_append,
      if_pos heq, List.map_cons, List.sum_cons, List.append_nil,
      AudioSegment.duration, List.sum_nil]
    omega
  · have hslice := @cumDuration_slice tracks (ie.toNat + 1) (tracks.length - 1) (by omega)
    have hsucc := cumDuration_succ hft
    simp only [seqDuration, if_neg heq, List.map_cons, List.sum_cons,
      List.map_append, List.sum_append, sum_full_track_segments, hslice,
      AudioSegment.duration, List.map_nil, List.sum_nil]
    omega

/-! ## Summation over all entries in playback order -/

theorem toc_in_playback_order_cons (e : ToCEntry) :
    e.toc_in_playback_order = e :: tocListInPlaybackOrder e.children := by
  cases e
  rw [ToCEntry.toc_in_playback_order]
  rfl

theorem tocListInPlaybackOrder_cons (e : ToCEntry) (es : List ToCEntry) :
    tocListInPlaybackOrder (e :: es)
      = e :: (tocListInPlaybackOrder e.children ++ tocListInPlaybackOrder es) := by
  rw [tocListInPlaybackOrder, toc_in_playback_order_cons]
  rfl

theorem chain_sum {tracks : List AudioTrack} :
    ∀ {l : List ToCEntry} {e0 : ToCEntry}, l.head? = some e0 →
    (∀ e ∈ l, ∃ i, trackIndexByHref tracks e.track_href = some i) →
    List.Chain' (entryPosLE tracks) l →
    ∃ seqs,
      (entryPairs l).mapM
        (fun p => audio_segments_for_toc_entry p.1 p.2 tracks) = some seqs ∧
      (seqs.map seqDuration).sum
        = totalTrackDuration tracks - absPos tracks e0 := by
  intro l
  induction l with
  | nil => intro e0 h0 _ _; simp at h0
  | cons e rest ih =>
    intro e0 h0 hmem hchain
    have he0 : e = e0 := by simpa using h0
    subst he0
    obtain ⟨ie, hie⟩ := hmem e (List.mem_cons_self e rest)
    cases rest with
    | nil =>
      obtain ⟨r, hr, hsum⟩ := asfte_last_sum hie
      refine ⟨[r], ?_, by simpa using hsum⟩
      rw [show entryPairs [e] = [(e, none)] from rfl, List.mapM_cons, hr,
        List.mapM_nil]
      rfl
    | cons f rest' =>
      obtain ⟨jf, hjf⟩ := hmem f (List.mem_cons_of_mem e (List.mem_cons_self f rest'))
      have hchain' : List.Chain' (entryPosLE tracks) (f :: rest') :=
        (List.chain'_cons.mp hchain).2
      have hEF : entryPosLE tracks e f := (List.chain'_cons.mp hchain).1
      have hpos : ie < jf ∨ (ie = jf ∧ e.track_offset ≤ f.track_offset) := by
        unfold entryPosLE at hEF
        rw [hie, hjf] at hEF
        simpa using hEF
      obtain ⟨r0, hr0, hsum0⟩ := asfte_next_sum hie hjf hpos
      obtain ⟨seqs', hseqs', hsum'⟩ := @ih f (by simp)
        (fun x hx => hmem x (List.mem_cons_of_mem e hx)) hchain'
      refine ⟨r0 :: seqs', ?_, ?_⟩
      · rw [show entryPairs (e :: f :: rest') = (e, some f) :: entryPairs (f :: rest')
          from rfl]
        rw [List.mapM_cons, hr0, hseqs']
        rfl
      · simp only [List.map_cons, List.sum_cons, hsum0, hsum']
        have habsE := absPos_eq hie
        have habsF := absPos_eq hjf
        omega

theorem track_fields_congr {e e' : ToCEntry} (h : e.href = e'.href) :
    e.track_href = e'.track_href ∧ e.track_offset = e'.track_offset := by
  unfold ToCEntry.track_href ToCEntry.track_offset
  rw [h]
  exact ⟨rfl, rfl⟩

theorem effective_toc_ne_nil {m : Manifest} (h : m.reading_order ≠ []) :
    m.effective_toc ≠ [] := by
  have hl : 0 < m.reading_order.length := List.length_pos.mpr h
  unfold Manifest.effective_toc
  cases htoc : m.toc with
  | none =>
    intro hc
    have hlen := congrArg List.length hc
    rw [List.length_map, List.enum_length] at hlen
    simp only [List.length_nil] at hlen
    omega
  | some l =>
    cases l with
    | nil =>
      intro hc
      have hlen := congrArg List.length hc
      rw [List.length_map, List.enum_length] at hlen
      simp only [List.length_nil] at hlen
      omega
    | cons x xs => simp

theorem toc_playback_cons {m : Manifest} {f0 : ToCEntry} {efr : List ToCEntry}
    (h : m.effective_toc = f0 :: efr) :
    m.toc_in_playback_order
      = f0 :: (tocListInPlaybackOrder f0.children ++ tocListInPlaybackOrder efr) := by
  unfold Manifest.toc_in_playback_order
  rw [h, tocListInPlaybackOrder_cons]

theorem entriesNonDecreasing_iff_chain {tracks : List AudioTrack} :
    ∀ {l : List ToCEntry},
      entriesNonDecreasing tracks l ↔ List.Chain' (entryPosLE tracks) l := by
  intro l
  induction l with
  | nil => simp [entriesNonDecreasing]
  | cons e rest ih =>
    cases rest with
    | nil => simp [entriesNonDecreasing]
    | cons f rest' =>
      rw [List.chain'_cons, entriesNonDecreasing]
      exact and_congr Iff.rfl ih

/-! ## Claim theorems -/

/-- Core partition lemma: on a valid manifest the pre-ToC unplayed
duration plus the sum of all entries' own segment durations telescopes to
the total declared track duration. -/
theorem partition_sum_core (b : Audiobook) (t0 : AudioTrack)
    (rest : List AudioTrack)
    (htracks : b.manifest.reading_order = t0 :: rest)
    (hnd : (b.manifest.reading_order.map AudioTrack.href).Nodup)
    (hmem : ∀ e ∈ b.manifest.toc_in_playback_order,
      (trackIndexByHref b.manifest.reading_order e.track_href).isSome)
    (hoff : ∀ e ∈ b.manifest.toc_in_playback_order, 0 ≤ e.track_offset)
    (hchain : List.Chain' (entryPosLE b.manifest.reading_order)
      b.manifest.toc_in_playback_order)
    (hsynth : (ToCEntry.from_track t0 "Track").track_href = t0.href ∧
      (ToCEntry.from_track t0 "Track").track_offset = 0) :
    ∃ pre seqs,
      b.pre_toc_unplayed_audio_segments = some pre ∧
      audio_segments_for_all_toc_entries b.manifest.toc_in_playback_order
        b.manifest.reading_order = some seqs ∧
      (pre.map AudioSegment.duration).sum + (seqs.map seqDuration).sum
        = totalTrackDuration b.manifest.reading_order := by
  have hne : b.manifest.effective_toc ≠ [] :=
    effective_toc_ne_nil (by rw [htracks]; simp)
  obtain ⟨f0, efr, heff⟩ : ∃ f0 efr, b.manifest.effective_toc = f0 :: efr := by
    cases hef : b.manifest.effective_toc with
    | nil => exact absurd hef hne
    | cons x xs => exact ⟨x, xs, rfl⟩
  have hplay := toc_playback_cons heff
  have hf0mem : f0 ∈ b.manifest.toc_in_playback_order := by
    rw [hplay]; exact List.mem_cons_self _ _
  have hmem' : ∀ e ∈ b.manifest.toc_in_playback_order,
      ∃ i, trackIndexByHref b.manifest.reading_order e.track_href = some i :=
    fun e he => Option.isSome_iff_exists.mp (hmem e he)
  have hhead : b.manifest.toc_in_playback_order.head? = some f0 := by
    rw [hplay]; rfl
  obtain ⟨seqs, hseqs, hsum⟩ := chain_sum hhead hmem' hchain
  have hall : audio_segments_for_all_toc_entries b.manifest.toc_in_playback_order
      b.manifest.reading_order = some seqs := by
    rw [hplay] at hseqs ⊢
    exact hseqs
  have hro_head : b.manifest.reading_order.head? = some t0 := by rw [htracks]; rfl
  have ht0get : b.manifest.reading_order[0]? = some t0 := by rw [htracks]; simp
  have hidx0 : trackIndexByHref b.manifest.reading_order t0.href = some 0 := by
    simpa using trackIndexByHref_nodup hnd ht0get
  have hsynthidx : trackIndexByHref b.manifest.reading_order
      (ToCEntry.from_track t0 "Track").track_href = some 0 := by
    rw [hsynth.1]; exact hidx0
  have habs_synth : absPos b.manifest.reading_order
      (ToCEntry.from_track t0 "Track") = 0 := by
    rw [absPos_eq hsynthidx, hsynth.2]
    simp [cumDuration]
  by_cases hhref : f0.href = (ToCEntry.from_track t0 "Track").href
  · have habs_f0 : absPos b.manifest.reading_order f0 = 0 := by
      obtain ⟨hth, hto⟩ := track_fields_congr hhref
      unfold absPos
      rw [hth, hto, hsynth.1, hsynth.2, hidx0]
      simp [cumDuration]
    have hpre : b.pre_toc_unplayed_audio_segments = some [] := by
      unfold Audiobook.pre_toc_unplayed_audio_segments
      rw [hro_head, heff]
      simp [hhref]
    refine ⟨[], seqs, hpre, hall, ?_⟩
    rw [habs_f0] at hsum
    simpa using hsum
  · obtain ⟨jf, hjf⟩ := hmem' f0 hf0mem
    have hjf0 := (trackIndexByHref_spec hjf).1
    have hposs : (0:Int) < jf ∨ ((0:Int) = jf ∧
        (ToCEntry.from_track t0 "Track").track_offset ≤ f0.track_offset) := by
      rcases eq_or_lt_of_le hjf0 with heqj | hltj
      · exact Or.inr ⟨heqj, by rw [hsynth.2]; exact hoff f0 hf0mem⟩
      · exact Or.inl hltj
    obtain ⟨r, hr, hrsum⟩ := asfte_next_sum hsynthidx hjf hposs
    have hpre : b.pre_toc_unplayed_audio_segments = some r.audio_segments := by
      unfold Audiobook.pre_toc_unplayed_audio_segments
      rw [hro_head, heff]
      simp [hhref, hr]
    refine ⟨r.audio_segments, seqs, hpre, hall, ?_⟩
    have hseq : (r.audio_segments.map AudioSegment.duration).sum = seqDuration r :=
      rfl
    rw [hseq, hrsum, habs_synth, hsum]
    ring

/-- C1: Partition invariant — for every valid manifest (non-empty track
list with distinct track hrefs per the data model, every ToC entry's
track reference present in the track list, non-negative offsets, entries'
start positions non-decreasing in playback order, and the synthetic
`track0#t=0` marker parsing back to track 0 at offset 0), the sum of all
entries' own segment durations plus the pre-ToC unplayed duration equals
the sum of all track declared durations — the claim's stated equivalent
of the tiling formulation. -/
theorem claim_C1_partition_invariant (b : Audiobook) (t0 : AudioTrack)
    (rest : List AudioTrack)
    (htracks : b.manifest.reading_order = t0 :: rest)
    (hnd : (b.manifest.reading_order.map AudioTrack.href).Nodup)
    (hmem : ∀ e ∈ b.manifest.toc_in_playback_order,
      (trackIndexByHref b.manifest.reading_order e.track_href).isSome)
    (hoff : ∀ e ∈ b.manifest.toc_in_playback_order, 0 ≤ e.track_offset)
    (hchain : List.Chain' (entryPosLE b.manifest.reading_order)
      b.manifest.toc_in_playback_order)
    (hsynth : (ToCEntry.from_track t0 "Track").track_href = t0.href ∧
      (ToCEntry.from_track t0 "Track").track_offset = 0) :
    ∃ pre seqs,
      b.pre_toc_unplayed_audio_segments = some pre ∧
      audio_segments_for_all_toc_entries b.manifest.toc_in_playback_order
        b.manifest.reading_order = some seqs ∧
      (pre.map AudioSegment.duration).sum + (seqs.map seqDuration).sum
        = totalTrackDuration b.manifest.reading_order :=
  partition_sum_core b t0 rest htracks hnd hmem hoff hchain hsynth

/-- Witness: the partition invariant evaluated on a concrete two-track
manifest with a nested ToC. -/
theorem claim_C1_partition_invariant_witness :
    ∃ pre seqs,
      (Audiobook.mk exManifest1).pre_toc_unplayed_audio_segments = some pre ∧
      audio_segments_for_all_toc_entries
        (Audiobook.mk exManifest1).manifest.toc_in_playback_order
        (Audiobook.mk exManifest1).manifest.reading_order = some seqs ∧
      (pre.map AudioSegment.duration).sum + (seqs.map seqDuration).sum
        = totalTrackDuration (Audiobook.mk exManifest1).manifest.reading_order :=
  claim_C1_partition_invariant ⟨exManifest1⟩ exTrackA [exTrackB] rfl
    (by decide) (by decide) (by decide)
    (entriesNonDecreasing_iff_chain.mp (by decide)) (by decide)

theorem toc_total_duration_eq {b : Audiobook} {seqs : List ToCAudioSegmentSequence}
    (hne : b.manifest.toc_in_playback_order ≠ [])
    (hall : audio_segments_for_all_toc_entries b.manifest.toc_in_playback_order
      b.manifest.reading_order = some seqs) :
    b.toc_total_duration = some ((seqs.map seqDuration).sum) := by
  unfold Audiobook.toc_total_duration
  cases hl : b.manifest.toc_in_playback_order with
  | nil => exact absurd hl hne
  | cons x xs =>
    rw [hl] at hall
    have hm : (entryPairs (x :: xs)).mapM
        (fun p => audio_segments_for_toc_entry p.1 p.2 b.manifest.reading_order)
        = some seqs := hall
    simp only [hm]
    rfl

/-- C4 counterexample: on a manifest whose single track has duration 30
and whose first ToC entry references `t0#t=5`, the code computes
`toc_total_duration = 25` (the sum of the entries' own durations), while
the pre-ToC unplayed duration is 5 — so `toc_total_duration` does NOT
equal the entries' sum plus the pre-ToC unplayed duration (25 + 5). -/
theorem claim_C4_counterexample :
    (Audiobook.mk exManifestLead).toc_total_duration = some 25 ∧
    (∃ pre, (Audiobook.mk exManifestLead).pre_toc_unplayed_audio_segments
        = some pre ∧ (pre.map AudioSegment.duration).sum = 5) ∧
    (Audiobook.mk exManifestLead).toc_total_duration ≠ some (25 + 5) :=
  ⟨rfl, ⟨[⟨exTrack30, 0, 5, 5⟩], rfl, rfl⟩, by decide⟩

/-- C4 (amended): for every valid manifest, `toc_total_duration` equals
the sum over the full flattened Enhanced ToC of each entry's own declared
duration, which EXCLUDES the pre-ToC unplayed duration: it equals the sum
of all track declared durations MINUS the pre-ToC unplayed duration. In
the concrete scenario (track 0 of duration 30, first entry at `#t=5`) the
5 leading seconds are excluded both from every entry's own duration and
from `toc_total_duration`, which is 25. -/
theorem claim_C4_amended_total_duration (b : Audiobook) (t0 : AudioTrack)
    (rest : List AudioTrack)
    (htracks : b.manifest.reading_order = t0 :: rest)
    (hnd : (b.manifest.reading_order.map AudioTrack.href).Nodup)
    (hmem : ∀ e ∈ b.manifest.toc_in_playback_order,
      (trackIndexByHref b.manifest.reading_order e.track_href).isSome)
    (hoff : ∀ e ∈ b.manifest.toc_in_playback_order, 0 ≤ e.track_offset)
    (hchain : List.Chain' (entryPosLE b.manifest.reading_order)
      b.manifest.toc_in_playback_order)
    (hsynth : (ToCEntry.from_track t0 "Track").track_href = t0.href ∧
      (ToCEntry.from_track t0 "Track").track_offset = 0) :
    ∃ pre, b.pre_toc_unplayed_audio_segments = some pre ∧
      b.toc_total_duration
        = some (totalTrackDuration b.manifest.reading_order
            - (pre.map AudioSegment.duration).sum) := by
  obtain ⟨pre, seqs, hpre, hall, hsum⟩ :=
    partition_sum_core b t0 rest htracks hnd hmem hoff hchain hsynth
  have hne : b.manifest.toc_in_playback_order ≠ [] := by
    have hne' : b.manifest.effective_toc ≠ [] :=
      effective_toc_ne_nil (by rw [htracks]; simp)
    cases hef : b.manifest.effective_toc with
    | nil => exact absurd hef hne'
    | cons x xs => rw [toc_playback_cons hef]; simp
  have htd := toc_total_duration_eq hne hall
  rw [htd]
  exact ⟨pre, hpre, congrArg some (by omega)⟩

/-- Witness: the amended C4 statement evaluated on the leading-unplayed
manifest, where the total is 30 − 5 = 25. -/
theorem claim_C4_amended_total_duration_witness :
    ∃ pre, (Audiobook.mk exManifestLead).pre_toc_unplayed_audio_segments
        = some pre ∧
      (Audiobook.mk exManifestLead).toc_total_duration
        = some (totalTrackDuration
              (Audiobook.mk exManifestLead).manifest.reading_order
            - (pre.map AudioSegment.duration).sum) :=
  claim_C4_amended_total_duration ⟨exManifestLead⟩ exTrack30 [] rfl
    (by decide) (by decide) (by decide)
    (entriesNonDecreasing_iff_chain.mp (by decide)) (by decide)

/-- C2: Boundary-rule table with precedence — whenever the entry's (and,
when present, the next entry's) track reference occurs in the track list:
with no next entry the span ends at index `len − 1` at that track's full
declared duration; with a next entry on the same track or at a nonzero
offset it ends on the next entry's track at the next entry's offset;
otherwise (next entry at offset 0 of a different track, at a positive
index) it ends on the previous track at its full declared duration. In
particular, for A at `a#t=8` and B at `b#t=0` with track `a` of duration
10, A's segment list is exactly `[{a, 8, 10}]`. -/
theorem claim_C2_boundary_rules :
    (∀ (tracks : List AudioTrack) (e : ToCEntry) (ie : Int),
      trackIndexByHref tracks e.track_href = some ie →
      (∀ lt, tracks[tracks.length - 1]? = some lt →
        _toc_track_boundaries e none tracks
          = some ⟨e, ie, e.track_offset, (tracks.length : Int) - 1,
              lt.duration, lt.actual_duration⟩) ∧
      (∀ f jf, trackIndexByHref tracks f.track_href = some jf →
        (e.track_href = f.track_href ∨ f.track_offset ≠ 0) →
        _toc_track_boundaries e (some f) tracks
          = some ⟨e, ie, e.track_offset, jf, f.track_offset,
              (f.track_offset : Rat)⟩) ∧
      (∀ f jf pt, trackIndexByHref tracks f.track_href = some jf →
        e.track_href ≠ f.track_href → f.track_offset = 0 → 1 ≤ jf →
        tracks[(jf - 1).toNat]? = some pt →
        _toc_track_boundaries e (some f) tracks
          = some ⟨e, ie, e.track_offset, jf - 1,
              pt.duration, pt.actual_duration⟩)) ∧
    audio_segments_for_toc_entry exEntryA8 (some exEntryB0)
        [exTrackA, exTrackB]
      = some ⟨exEntryA8, [⟨exTrackA, 8, 10, 0⟩]⟩ := by
  refine ⟨fun tracks e ie hE => ⟨?_, ?_, ?_⟩, rfl⟩
  · intro lt hlt
    exact tb_none_eq hE hlt
  · intro f jf hF hc
    exact tb_next_eq hE hF hc
  · intro f jf pt hF hch hz h1 hpt
    exact tb_prev_eq hE hF (by push_neg; exact ⟨hch, hz⟩) h1 hpt

/-- Witness: the boundary resolver applied to the rule-4 example — A at
`a#t=8`, B at `b#t=0`, track `a` of duration 10 — ends A's span on track
index 0 at offset 10. -/
theorem claim_C2_boundary_rules_witness :
    _toc_track_boundaries exEntryA8 (some exEntryB0) [exTrackA, exTrackB]
      = some ⟨exEntryA8, 0, 8, 0, 10, 0⟩ := by
  have h := (claim_C2_boundary_rules.1 [exTrackA, exTrackB] exEntryA8 0
    (by decide)).2.2 exEntryB0 1 exTrackA (by decide) (by decide) (by decide)
    (by decide) (by decide)
  simpa using h

/-- C3: Segment-assembly structure — for every resolved boundary
`(fi, fo, li, lo)` with `0 ≤ fi ≤ li < len(tracks)`, the assembler emits
exactly `li − fi + 1` segments in track order: a first segment on track
`fi` starting at `fo` (ending at `lo` when `fi = li`, else at track
`fi`'s full duration), one full-duration segment per track strictly
between `fi` and `li`, and — only when `fi ≠ li` — a last segment on
track `li` from 0 to `lo`; the segment durations always sum to
`(cum(li) + lo) − (cum(fi) + fo)`, which for an entry spanning 3 tracks
is `(track_fi.duration − fo) + track_(fi+1).duration + lo`. -/
theorem claim_C3_segment_assembly (tracks : List AudioTrack)
    (entry : ToCEntry) (fi fo li lo : Int) (loA : Rat)
    (h0 : 0 ≤ fi) (hfl : fi ≤ li) (hll : li < (tracks.length : Int)) :
    ∃ r ft lt, tracks[fi.toNat]? = some ft ∧ tracks[li.toNat]? = some lt ∧
      assembleAudioSegments ⟨entry, fi, fo, li, lo, loA⟩ tracks = some r ∧
      r.audio_segments
        = (⟨ft, fo, (if fi = li then lo else ft.duration),
            (if fi = li then loA else ft.actual_duration)⟩ : AudioSegment) ::
          ((tracks.drop (fi.toNat + 1)).take (li.toNat - (fi.toNat + 1))).map
            (fun t => (⟨t, 0, t.duration, t.actual_duration⟩ : AudioSegment)) ++
          (if fi = li then []
            else [(⟨lt, 0, lo, loA⟩ : AudioSegment)]) ∧
      r.audio_segments.length = (li - fi).toNat + 1 ∧
      (r.audio_segments.map AudioSegment.duration).sum
        = (cumDuration tracks li.toNat + lo)
          - (cumDuration tracks fi.toNat + fo) := by
  have hfll : fi < (tracks.length : Int) := lt_of_le_of_lt hfl hll
  have hl0 : 0 ≤ li := le_trans h0 hfl
  have hftn : fi.toNat < tracks.length := by omega
  have hltn : li.toNat < tracks.length := by omega
  have hft : tracks[fi.toNat]? = some tracks[fi.toNat] :=
    List.getElem?_eq_getElem hftn
  have hlt : tracks[li.toNat]? = some tracks[li.toNat] :=
    List.getElem?_eq_getElem hltn
  have hasm := @assemble_eq tracks entry fi fo li lo loA
    (tracks[fi.toNat]) (tracks[li.toNat]) h0 hfl hll hft hlt
  refine ⟨_, tracks[fi.toNat], tracks[li.toNat], hft, hlt, hasm, rfl, ?_, ?_⟩
  · have hmidlen :
        (((tracks.drop (fi.toNat + 1)).take (li.toNat - (fi.toNat + 1))).map
          (fun t => (⟨t, 0, t.duration, t.actual_duration⟩ : AudioSegment))).length
        = li.toNat - (fi.toNat + 1) := by
      rw [List.length_map, List.length_take, List.length_drop]
      omega
    have hiflen : (if fi = li then ([] : List AudioSegment)
        else [(⟨tracks[li.toNat], 0, lo, loA⟩ : AudioSegment)]).length
        = if fi = li then 0 else 1 := by
      by_cases heq : fi = li
      · rw [if_pos heq, if_pos heq]; rfl
      · rw [if_neg heq, if_neg heq]; rfl
    dsimp only
    simp only [List.length_cons, List.length_append, hmidlen, hiflen]
    by_cases heq : fi = li
    · rw [if_pos heq]; omega
    · rw [if_neg heq]; omega
  · dsimp only
    by_cases heq : fi = li
    · have hmid0 : li.toNat - (fi.toNat + 1) = 0 := by omega
      have hcum : cumDuration tracks fi.toNat = cumDuration tracks li.toNat := by
        rw [heq]
      simp only [hmid0, List.take_zero, List.map_nil, List.nil_append,
        if_pos heq, List.map_cons, List.sum_cons, List.append_nil,
        AudioSegment.duration, List.sum_nil]
      omega
    · have hslice := @cumDuration_slice tracks (fi.toNat + 1) li.toNat (by omega)
      have hsucc := cumDuration_succ hft
      simp only [if_neg heq, List.map_cons, List.sum_cons, List.map_append,
        List.sum_append, sum_full_track_segments, hslice,
        AudioSegment.duration, List.map_nil, List.sum_nil]
      omega

/-- Witness: assembling the boundary (track 0 at offset 3, track 2 at
offset 7) over three tracks of durations 10, 20, 15 yields exactly 3
segments — partial-first `{a,3,10}`, full-middle `{b,0,20}`,
partial-last `{c,0,7}` — whose durations sum to
`(10 − 3) + 20 + 7 = 34`. -/
theorem claim_C3_segment_assembly_witness :
    ∃ r ft lt,
      ([exTrackA, exTrackB, exTrackC] : List AudioTrack)[(0:Int).toNat]?
        = some ft ∧
      ([exTrackA, exTrackB, exTrackC] : List AudioTrack)[(2:Int).toNat]?
        = some lt ∧
      assembleAudioSegments ⟨exEntryA8, 0, 3, 2, 7, 7⟩
        [exTrackA, exTrackB, exTrackC] = some r ∧
      r.audio_segments
        = (⟨ft, 3, (if (0:Int) = 2 then 7 else ft.duration),
            (if (0:Int) = 2 then (7:Rat) else ft.actual_duration)⟩ : AudioSegment) ::
          (([exTrackA, exTrackB, exTrackC].drop ((0:Int).toNat + 1)).take
              ((2:Int).toNat - ((0:Int).toNat + 1))).map
            (fun t => (⟨t, 0, t.duration, t.actual_duration⟩ : AudioSegment)) ++
          (if (0:Int) = 2 then []
            else [(⟨lt, 0, 7, (7:Rat)⟩ : AudioSegment)]) ∧
      r.audio_segments.length = ((2:Int) - 0).toNat + 1 ∧
      (r.audio_segments.map AudioSegment.duration).sum
        = (cumDuration [exTrackA, exTrackB, exTrackC] (2:Int).toNat + 7)
          - (cumDuration [exTrackA, exTrackB, exTrackC] (0:Int).toNat + 3) :=
  claim_C3_segment_assembly [exTrackA, exTrackB, exTrackC] exEntryA8 0 3 2 7 7
    (by decide) (by decide) (by decide)

theorem entryPairs_fst_mem {l : List ToCEntry} {e : ToCEntry} (he : e ∈ l) :
    ∃ nx, (e, nx) ∈ entryPairs l := by
  induction l with
  | nil => simp at he
  | cons x xs ih =>
    cases xs with
    | nil =>
      rcases List.mem_cons.mp he with rfl | hx
      · exact ⟨none, List.mem_singleton.mpr rfl⟩
      · simp at hx
    | cons y ys =>
      rcases List.mem_cons.mp he with rfl | hx
      · exact ⟨some y, List.mem_cons_self _ _⟩
      · obtain ⟨nx, hnx⟩ := ih hx
        exact ⟨nx, List.mem_cons_of_mem _ hnx⟩

theorem mapM_eq_none_of_mem {α β : Type} {f : α → Option β} {l : List α} {x : α}
    (hx : x ∈ l) (hfx : f x = none) : l.mapM f = none := by
  induction l with
  | nil => simp at hx
  | cons y ys ih =>
    rw [List.mapM_cons]
    rcases List.mem_cons.mp hx with rfl | hx'
    · rw [hfx]; rfl
    · cases hfy : f y with
      | none => rfl
      | some v =>
        rw [ih hx']
        rfl

/-- C5: Missing track reference — for every entry whose track reference
(the href part before `#t=`) occurs in no track of the track list, the
boundary resolver raises (modelled as `none`, abstracting the exception
class), the error propagates so that no segment list is produced for the
entry, and resolving any entry sequence containing that entry fails as a
whole rather than being retried or silently skipped. -/
theorem claim_C5_missing_track_reference (tracks : List AudioTrack)
    (e : ToCEntry) (next_entry : Option ToCEntry)
    (hmiss : ∀ t ∈ tracks, t.href ≠ e.track_href) :
    _toc_track_boundaries e next_entry tracks = none ∧
    audio_segments_for_toc_entry e next_entry tracks = none ∧
    (∀ entries, e ∈ entries →
      audio_segments_for_all_toc_entries entries tracks = none) := by
  have hE : trackIndexByHref tracks e.track_href = none :=
    trackIndexByHref_eq_none.mpr hmiss
  have htb : _toc_track_boundaries e next_entry tracks = none := tb_missing hE
  refine ⟨htb, ?_, ?_⟩
  · unfold audio_segments_for_toc_entry
    rw [htb]
    rfl
  · intro entries hemem
    obtain ⟨nx, hnx⟩ := entryPairs_fst_mem hemem
    cases entries with
    | nil => simp at hemem
    | cons x xs =>
      have : audio_segments_for_toc_entry e nx tracks = none := by
        unfold audio_segments_for_toc_entry
        rw [tb_missing hE]
        rfl
      exact mapM_eq_none_of_mem hnx this

/-- Witness: a single entry referencing the absent track `zz` fails to
resolve against a one-track list, alone and inside a sequence. -/
theorem claim_C5_missing_track_reference_witness :
    _toc_track_boundaries exEntryZZ none [exTrackA] = none ∧
    audio_segments_for_toc_entry exEntryZZ none [exTrackA] = none ∧
    audio_segments_for_all_toc_entries [exEntryZZ] [exTrackA] = none := by
  have h := claim_C5_missing_track_reference [exTrackA] exEntryZZ none
    (by decide)
  exact ⟨h.1, h.2.1, h.2.2 [exEntryZZ] (List.mem_singleton.mpr rfl)⟩

theorem asfte_segments_ne_nil {e : ToCEntry} {next_entry : Option ToCEntry}
    {tracks : List AudioTrack} {r : ToCAudioSegmentSequence}
    (h : audio_segments_for_toc_entry e next_entry tracks = some r) :
    r.audio_segments ≠ [] := by
  obtain ⟨te, segs⟩ := r
  unfold audio_segments_for_toc_entry at h
  cases htb : _toc_track_boundaries e next_entry tracks with
  | none => rw [htb] at h; simp at h
  | some bnd =>
    rw [htb, Option.some_bind] at h
    unfold assembleAudioSegments at h
    cases hft : pyGet tracks bnd.first_track_index with
    | none => rw [hft] at h; simp at h
    | some ft =>
      rw [hft] at h
      by_cases heq : bnd.first_track_index ≠ bnd.last_track_index
      · cases hlt : pyGet tracks bnd.last_track_index with
        | none => simp [if_pos heq, hlt] at h
        | some lt =>
          simp only [if_pos heq, hlt] at h
          intro hc
          dsimp only at hc
          subst hc
          simp at h
      · simp only [if_neg heq] at h
        intro hc
        dsimp only at hc
        subst hc
        simp at h

/-- C6: Pre-ToC unplayed segments — for every manifest with a non-empty
track list, `pre_toc_unplayed_audio_segments` returns the empty list
exactly when the first effective-ToC entry's href equals the synthetic
href of track 0 at offset 0 (`track0.href ++ "#t=0"`); and on the
concrete manifest whose track 0 has duration 30 with first ToC entry
`t0#t=5` it returns exactly `[{t0, start 0, end 5}]` (duration 5). -/
theorem claim_C6_pre_toc_unplayed :
    (∀ (b : Audiobook) (t0 : AudioTrack) (rest : List AudioTrack)
      (f0 : ToCEntry) (efr : List ToCEntry),
      b.manifest.reading_order = t0 :: rest →
      b.manifest.effective_toc = f0 :: efr →
      (b.pre_toc_unplayed_audio_segments = some [] ↔
        f0.href = t0.href ++ "#t=0")) ∧
    (Audiobook.mk exManifestLead).pre_toc_unplayed_audio_segments
      = some [⟨exTrack30, 0, 5, 5⟩] := by
  refine ⟨?_, rfl⟩
  intro b t0 rest f0 efr htracks heff
  have hro_head : b.manifest.reading_order.head? = some t0 := by
    rw [htracks]; rfl
  have heff_head : b.manifest.effective_toc.head? = some f0 := by
    rw [heff]; rfl
  have hsyn : (ToCEntry.from_track t0 "Track").href = t0.href ++ "#t=0" := rfl
  constructor
  · intro hpre
    by_contra hhref
    unfold Audiobook.pre_toc_unplayed_audio_segments at hpre
    rw [hro_head] at hpre
    dsimp only at hpre
    rw [heff_head] at hpre
    dsimp only at hpre
    rw [hsyn, if_neg hhref] at hpre
    cases hr : audio_segments_for_toc_entry (ToCEntry.from_track t0 "Track")
        (some f0) b.manifest.reading_order with
    | none => rw [hr] at hpre; exact absurd hpre (by simp)
    | some r =>
      rw [hr] at hpre
      have hsegs : r.audio_segments = [] := by
        have : (some r).map (fun s => s.audio_segments) = some r.audio_segments :=
          rfl
        rw [this] at hpre
        exact Option.some.inj hpre
      exact asfte_segments_ne_nil hr hsegs
  · intro hhref
    unfold Audiobook.pre_toc_unplayed_audio_segments
    rw [hro_head]
    dsimp only
    rw [heff_head]
    dsimp only
    rw [hsyn, if_pos hhref]

/-- Witness: on the two-track example manifest the first effective entry
is `a#t=0`, the synthetic marker of track `a` — so the pre-ToC unplayed
segment list is empty. -/
theorem claim_C6_pre_toc_unplayed_witness :
    (Audiobook.mk exManifest1).pre_toc_unplayed_audio_segments = some [] :=
  ((claim_C6_pre_toc_unplayed.1 ⟨exManifest1⟩ exTrackA [exTrackB]
    (.mk "a#t=0" "Chapter 1" [.mk "a#t=4" "Section 1.1" []])
    [.mk "b#t=5" "Chapter 2" []] rfl rfl).mpr (by decide))

/-- C7: Synthesized effective ToC — for every manifest whose `toc` is
absent or empty, the effective ToC is a flat sequence with exactly one
top-level entry per track in track order, each entry's href pointing at
its track at offset 0 (and, whenever that href splits cleanly on `#t=`,
parsing back to the track at offset 0), childless, titled by the track's
own (non-empty) title or `Track N` (1-based) when the track has none;
consequently the 4-track example with durations 10, 20, 15, 5 resolves to
4 top-level entries, each one full-track segment, and a total declared
duration of 50. -/
theorem claim_C7_synthesized_toc :
    (∀ (m : Manifest), (m.toc = none ∨ m.toc = some []) →
      m.effective_toc.length = m.reading_order.length ∧
      ∀ k t, m.reading_order[k]? = some t →
        ∃ e, m.effective_toc[k]? = some e ∧
          e.href = t.href ++ "#t=0" ∧
          e.children = [] ∧
          (splitOnTSep (t.href ++ "#t=0").data = [t.href.data, ['0']] →
            e.track_href = t.href ∧ e.track_offset = (0 : Int)) ∧
          (∀ s, t.title = some s → s ≠ "" → e.title = s) ∧
          (t.title = none → e.title = "Track " ++ toString (k + 1))) ∧
    audio_segments_for_all_toc_entries exManifest4.toc_in_playback_order
        exManifest4.reading_order
      = some [⟨.mk "a#t=0" "Track 1" [], [⟨exTrackA, 0, 10, 0⟩]⟩,
          ⟨.mk "b#t=0" "Track 2" [], [⟨exTrackB, 0, 20, 0⟩]⟩,
          ⟨.mk "c#t=0" "Track 3" [], [⟨exTrackC, 0, 15, 0⟩]⟩,
          ⟨.mk "d#t=0" "Track 4" [], [⟨exTrackD, 0, 5, 0⟩]⟩] ∧
    (Audiobook.mk exManifest4).toc_total_duration = some 50 := by
  refine ⟨?_, rfl, rfl⟩
  intro m htoc
  have heff : m.effective_toc = m.reading_order.enum.map
      (fun p => ToCEntry.from_track p.2 ("Track " ++ toString (p.1 + 1))) := by
    unfold Manifest.effective_toc
    rcases htoc with h | h <;> rw [h]
  constructor
  · rw [heff, List.length_map, List.enum_length]
  · intro k t hkt
    refine ⟨ToCEntry.from_track t ("Track " ++ toString (k + 1)), ?_, rfl, rfl,
      ?_, ?_, ?_⟩
    · rw [heff, List.getElem?_map, List.getElem?_enum, hkt]
      rfl
    · intro hsep
      unfold ToCEntry.track_href ToCEntry.track_offset
      have hdata : (ToCEntry.from_track t ("Track " ++ toString (k + 1))).href.data
          = (t.href ++ "#t=0").data := rfl
      rw [hdata, hsep]
      exact ⟨rfl, rfl⟩
    · intro s hs hserr
      unfold ToCEntry.from_track ToCEntry.title
      rw [hs]
      simp [hserr]
    · intro hn
      unfold ToCEntry.from_track ToCEntry.title
      rw [hn]

/-- Witness: the synthesized-ToC description instantiated on the 4-track
manifest at index 1 (track `b`). -/
theorem claim_C7_synthesized_toc_witness :
    exManifest4.effective_toc.length = exManifest4.reading_order.length ∧
    ∃ e, exManifest4.effective_toc[1]? = some e ∧
      e.href = exTrackB.href ++ "#t=0" ∧
      e.track_href = exTrackB.href ∧ e.track_offset = (0 : Int) ∧
      e.title = "Track " ++ toString (1 + 1) := by
  have h := claim_C7_synthesized_toc.1 exManifest4 (Or.inl rfl)
  obtain ⟨e, he, hhref, hch, hsep, htit1, htit2⟩ := h.2 1 exTrackB (by decide)
  have hf := hsep (by decide)
  exact ⟨h.1, e, he, hhref, hf.1, hf.2, htit2 rfl⟩

/-- C9 counterexample: a manifest with zero tracks and no explicit ToC
does NOT fail before producing a ToC or aggregate durations — the
synthesized effective ToC is (successfully) empty and
`toc_total_duration` succeeds with 0; only the operations that touch the
track list (here `pre_toc_unplayed_audio_segments`) fail. -/
theorem claim_C9_counterexample :
    exManifest0.reading_order = [] ∧
    exManifest0.effective_toc = [] ∧
    (Audiobook.mk exManifest0).toc_total_duration = some 0 ∧
    (Audiobook.mk exManifest0).pre_toc_unplayed_audio_segments = none :=
  ⟨rfl, rfl, rfl, rfl⟩

/-- C9 (amended): for every manifest supplying zero tracks, computing the
pre-ToC unplayed segments fails, and boundary resolution / segment
resolution fails for every entry (the code raises a generic index or
lookup error — no dedicated `EmptyTrackListError` class exists); however,
when no explicit ToC is present, the synthesized effective ToC is empty
and the aggregate `toc_total_duration` succeeds trivially with 0 instead
of failing. -/
theorem claim_C9_amended_empty_track_list (m : Manifest)
    (h : m.reading_order = []) :
    Audiobook.pre_toc_unplayed_audio_segments ⟨m⟩ = none ∧
    (∀ e next_entry, _toc_track_boundaries e next_entry m.reading_order = none ∧
      audio_segments_for_toc_entry e next_entry m.reading_order = none) ∧
    ((m.toc = none ∨ m.toc = some []) →
      m.effective_toc = [] ∧ Audiobook.toc_total_duration ⟨m⟩ = some 0) := by
  have hhead : m.reading_order.head? = none := by rw [h]; rfl
  refine ⟨?_, ?_, ?_⟩
  · unfold Audiobook.pre_toc_unplayed_audio_segments
    rw [hhead]
  · intro e next_entry
    have hE : trackIndexByHref m.reading_order e.track_href = none := by
      rw [h]; rfl
    have htb := @tb_missing m.reading_order e next_entry hE
    refine ⟨htb, ?_⟩
    unfold audio_segments_for_toc_entry
    rw [htb]
    rfl
  · intro htoc
    have heff : m.effective_toc = [] := by
      unfold Manifest.effective_toc
      rcases htoc with h1 | h1 <;> rw [h1] <;> rw [h] <;> rfl
    refine ⟨heff, ?_⟩
    have hplay : m.toc_in_playback_order = [] := by
      unfold Manifest.toc_in_playback_order
      rw [heff]
      rfl
    unfold Audiobook.toc_total_duration
    rw [hplay]

/-- Witness: the amended C9 statement evaluated on the zero-track
manifest. -/
theorem claim_C9_amended_empty_track_list_witness :
    Audiobook.pre_toc_unplayed_audio_segments ⟨exManifest0⟩ = none ∧
    _toc_track_boundaries exEntryA8 none exManifest0.reading_order = none ∧
    exManifest0.effective_toc = [] ∧
    Audiobook.toc_total_duration ⟨exManifest0⟩ = some 0 := by
  have h := claim_C9_amended_empty_track_list exManifest0 rfl
  exact ⟨h.1, (h.2.1 exEntryA8 none).1, (h.2.2 (Or.inl rfl)).1,
    (h.2.2 (Or.inl rfl)).2⟩

theorem tb_some_shape {e : ToCEntry} {next_entry : Option ToCEntry}
    {tracks : List AudioTrack} {bnd : ToCTrackBoundaries}
    (h : _toc_track_boundaries e next_entry tracks = some bnd) :
    trackIndexByHref tracks e.track_href = some bnd.first_track_index ∧
    bnd.first_track_start_offset = e.track_offset ∧ bnd.toc_entry = e := by
  unfold _toc_track_boundaries at h
  cases hend : _toc_end_boundaries e next_entry tracks with
  | none => rw [hend] at h; simp at h
  | some y =>
    obtain ⟨ei, eo, ea⟩ := y
    rw [hend] at h
    cases hfi : trackIndexByHref tracks e.track_href with
    | none => rw [hfi] at h; simp at h
    | some fi =>
      rw [hfi] at h
      have hb : bnd = ⟨e, fi, e.track_offset, ei, eo, ea⟩ := by
        have hx : (some ⟨e, fi, e.track_offset, ei, eo, ea⟩
            : Option ToCTrackBoundaries) = some bnd := h
        exact (Option.some.inj hx).symm
      subst hb
      exact ⟨rfl, rfl, rfl⟩

theorem asfte_some_shape {e : ToCEntry} {next_entry : Option ToCEntry}
    {tracks : List AudioTrack} {r : ToCAudioSegmentSequence}
    (h : audio_segments_for_toc_entry e next_entry tracks = some r) :
    ∃ ie ft en ea rest, trackIndexByHref tracks e.track_href = some ie ∧
      pyGet tracks ie = some ft ∧
      r.audio_segments = ⟨ft, e.track_offset, en, ea⟩ :: rest := by
  obtain ⟨te, segs⟩ := r
  unfold audio_segments_for_toc_entry at h
  cases htb : _toc_track_boundaries e next_entry tracks with
  | none => rw [htb] at h; simp at h
  | some bnd =>
    obtain ⟨hfi, hfo, hte⟩ := tb_some_shape htb
    rw [htb, Option.some_bind] at h
    unfold assembleAudioSegments at h
    cases hft : pyGet tracks bnd.first_track_index with
    | none => rw [hft] at h; simp at h
    | some ft =>
      rw [hft] at h
      by_cases heq : bnd.first_track_index ≠ bnd.last_track_index
      · cases hlt : pyGet tracks bnd.last_track_index with
        | none => simp [if_pos heq, hlt] at h
        | some lt =>
          simp only [if_pos heq, hlt] at h
          have h2 := congrArg ToCAudioSegmentSequence.audio_segments
            (Option.some.inj h)
          rw [hfo] at h2
          exact ⟨_, _, _, _, _, hfi, hft, h2.symm⟩
      · simp only [if_neg heq] at h
        have h2 := congrArg ToCAudioSegmentSequence.audio_segments
          (Option.some.inj h)
        rw [hfo] at h2
        exact ⟨_, _, _, _, _, hfi, hft, h2.symm⟩

theorem nodup_href_index {ts : List AudioTrack} {i j : Nat} {a c : AudioTrack}
    (hnd : (ts.map AudioTrack.href).Nodup) (ha : ts[i]? = some a)
    (hc : ts[j]? = some c) (hh : a.href = c.href) : i = j := by
  have h1 := trackIndexByHref_nodup hnd ha
  have h2 := trackIndexByHref_nodup hnd hc
  rw [hh] at h1
  rw [h1] at h2
  simpa using (Option.some.inj h2)

theorem adjacency_pair {tracks : List AudioTrack} {e f : ToCEntry}
    {g : Option ToCEntry} {ie jf : Int} {rE rF : ToCAudioSegmentSequence}
    {sE sF : AudioSegment}
    (hnd : (tracks.map AudioTrack.href).Nodup)
    (hE : trackIndexByHref tracks e.track_href = some ie)
    (hF : trackIndexByHref tracks f.track_href = some jf)
    (hpos : ie < jf ∨ (ie = jf ∧ e.track_offset ≤ f.track_offset))
    (hrE : audio_segments_for_toc_entry e (some f) tracks = some rE)
    (hrF : audio_segments_for_toc_entry f g tracks = some rF)
    (hsE : rE.audio_segments.getLast? = some sE)
    (hsF : rF.audio_segments.head? = some sF)
    (hsame : sE.track = sF.track) :
    sE.end_ = sF.start := by
  obtain ⟨hie0, hiel, ftE, hftE, hfhE⟩ := trackIndexByHref_spec hE
  obtain ⟨hjf0, hjfl, gtF, hgtF, hghF⟩ := trackIndexByHref_spec hF
  have hle : ie ≤ jf := by rcases hpos with h | ⟨h, _⟩ <;> omega
  -- The head of the successor's segment list starts at its own offset.
  obtain ⟨jf', ftF, en, ea, rest, hF', hgetF, hsegF⟩ := asfte_some_shape hrF
  have hjf' : jf' = jf := Option.some.inj (hF'.symm.trans hF)
  rw [hjf'] at hgetF
  have hsFv : sF = ⟨ftF, f.track_offset, en, ea⟩ := by
    rw [hsegF] at hsF
    exact (Option.some.inj hsF).symm
  have hftF' : tracks[jf.toNat]? = some ftF := by
    rw [pyGet_eq hjf0 (by omega)] at hgetF
    exact hgetF
  have hftFgt : ftF = gtF := Option.some.inj (hftF'.symm.trans hgtF)
  by_cases hc : e.track_href = f.track_href ∨ f.track_offset ≠ 0
  · have htb := tb_next_eq hE hF hc
    have hasm := @assemble_eq tracks e ie e.track_offset jf f.track_offset
      ((f.track_offset : Rat)) ftE gtF hie0 hle (by omega) hftE hgtF
    have hunf : audio_segments_for_toc_entry e (some f) tracks
        = assembleAudioSegments
            ⟨e, ie, e.track_offset, jf, f.track_offset, (f.track_offset : Rat)⟩
            tracks := by
      unfold audio_segments_for_toc_entry; rw [htb]; rfl
    have hval := hunf.trans hasm
    have hRE := Option.some.inj (hrE.symm.trans hval)
    by_cases heq : ie = jf
    · have hmid0 : jf.toNat - (ie.toNat + 1) = 0 := by omega
      rw [hRE] at hsE
      dsimp only at hsE
      simp only [hmid0, List.take_zero, List.map_nil, List.nil_append,
        List.append_nil, if_pos heq, List.getLast?_singleton,
        Option.some.injEq] at hsE
      rw [← hsE, hsFv]
    · rw [hRE] at hsE
      dsimp only at hsE
      simp only [if_neg heq] at hsE
      rw [List.getLast?_concat] at hsE
      have hsEv : sE = ⟨gtF, 0, f.track_offset, (f.track_offset : Rat)⟩ :=
        (Option.some.inj hsE).symm
      rw [hsEv, hsFv]
  · push_neg at hc
    obtain ⟨hch, hcz⟩ := hc
    have hne : ie ≠ jf := by
      intro h
      rw [h] at hftE
      have : ftE = gtF := Option.some.inj (hftE.symm.trans hgtF)
      exact hch (hfhE ▸ this ▸ hghF)
    have hltj : ie < jf := by omega
    have h1 : 1 ≤ jf := by omega
    have hptn : (jf - 1).toNat < tracks.length := by omega
    have hpt : tracks[(jf - 1).toNat]? = some tracks[(jf - 1).toNat] :=
      List.getElem?_eq_getElem hptn
    have htb := tb_prev_eq hE hF (by push_neg; exact ⟨hch, hcz⟩) h1 hpt
    have hasm := @assemble_eq tracks e ie e.track_offset (jf - 1)
      ((tracks[(jf - 1).toNat]).duration)
      ((tracks[(jf - 1).toNat]).actual_duration)
      ftE (tracks[(jf - 1).toNat])
      hie0 (by omega) (by omega) hftE hpt
    have hunf : audio_segments_for_toc_entry e (some f) tracks
        = assembleAudioSegments
            ⟨e, ie, e.track_offset, jf - 1, (tracks[(jf - 1).toNat]).duration,
              (tracks[(jf - 1).toNat]).actual_duration⟩
            tracks := by
      unfold audio_segments_for_toc_entry; rw [htb]; rfl
    have hval := hunf.trans hasm
    have hRE := Option.some.inj (hrE.symm.trans hval)
    -- In the previous-track case the two segments can never lie on the
    -- same track, since the track list has no duplicate hrefs.
    exfalso
    by_cases heq : ie = jf - 1
    · have hmid0 : (jf - 1).toNat - (ie.toNat + 1) = 0 := by omega
      rw [hRE] at hsE
      dsimp only at hsE
      simp only [hmid0, List.take_zero, List.map_nil, List.nil_append,
        List.append_nil, if_pos heq, List.getLast?_singleton,
        Option.some.injEq] at hsE
      have htrk : sE.track = ftE := by rw [← hsE]
      rw [htrk, hsFv] at hsame
      have hidx : ie.toNat = jf.toNat :=
        nodup_href_index hnd hftE hftF' (by rw [hsame])
      omega
    · rw [hRE] at hsE
      dsimp only at hsE
      simp only [if_neg heq] at hsE
      rw [List.getLast?_concat] at hsE
      have htrk : sE.track = tracks[(jf - 1).toNat] := by
        rw [← (Option.some.inj hsE)]
      rw [htrk, hsFv] at hsame
      have hidx : (jf - 1).toNat = jf.toNat :=
        nodup_href_index hnd hpt hftF' (by rw [hsame])
      omega

theorem entryPairs_length (l : List ToCEntry) :
    (entryPairs l).length = l.length := by
  induction l with
  | nil => rfl
  | cons e rest ih =>
    cases rest with
    | nil => rfl
    | cons f r =>
      simp only [entryPairs, List.length_cons] at ih ⊢
      omega

theorem entryPairs_get {l : List ToCEntry} {k : Nat} {e : ToCEntry}
    (h : l[k]? = some e) :
    (entryPairs l)[k]? = some (e, l[k + 1]?) := by
  induction l generalizing k with
  | nil => simp at h
  | cons a rest ih =>
    cases rest with
    | nil =>
      cases k with
      | zero =>
        simp only [List.getElem?_cons_zero, Option.some.injEq] at h
        subst h
        rfl
      | succ k => simp at h
    | cons f r =>
      cases k with
      | zero =>
        simp only [List.getElem?_cons_zero, Option.some.injEq] at h
        subst h
        simp [entryPairs]
      | succ k =>
        have hr := ih (show (f :: r)[k]? = some e by simpa using h)
        simpa [entryPairs] using hr

theorem mapM_length {α β : Type} {f : α → Option β} {l : List α} {rs : List β}
    (h : l.mapM f = some rs) : rs.length = l.length := by
  induction l generalizing rs with
  | nil =>
    rw [List.mapM_nil] at h
    cases h
    rfl
  | cons a as ih =>
    rw [List.mapM_cons] at h
    cases hfa : f a with
    | none => rw [hfa] at h; simp at h
    | some b =>
      rw [hfa] at h
      cases hms : as.mapM f with
      | none => rw [hms] at h; simp at h
      | some bs =>
        rw [hms] at h
        have h2 : b :: bs = rs := by simpa using h
        subst h2
        simp [ih hms]

theorem mapM_get {α β : Type} {f : α → Option β} {l : List α} {rs : List β}
    (h : l.mapM f = some rs) {k : Nat} {x : α} (hx : l[k]? = some x) :
    ∃ y, rs[k]? = some y ∧ f x = some y := by
  induction l generalizing rs k with
  | nil => simp at hx
  | cons a as ih =>
    rw [List.mapM_cons] at h
    cases hfa : f a with
    | none => rw [hfa] at h; simp at h
    | some b =>
      rw [hfa] at h
      cases hms : as.mapM f with
      | none => rw [hms] at h; simp at h
      | some bs =>
        rw [hms] at h
        have h2 : b :: bs = rs := by simpa using h
        subst h2
        cases k with
        | zero =>
          simp only [List.getElem?_cons_zero, Option.some.injEq] at hx
          subst hx
          exact ⟨b, by simp, hfa⟩
        | succ k =>
          obtain ⟨y, hy, hfy⟩ := ih hms (by simpa using hx)
          exact ⟨y, by simpa using hy, hfy⟩

/-- **C8** Adjacency invariant: for every valid manifest (tracks with
distinct hrefs, every entry's track reference present, entry start
positions non-decreasing in playback order), whenever
`audio_segments_for_all_toc_entries` succeeds on the flattened entry list,
any consecutive pair of result sequences is adjacent and non-overlapping:
if entry `i`'s last segment and entry `i+1`'s first segment lie on the
same track, the former's end offset equals the latter's start offset. -/
theorem claim_C8_adjacency_invariant {tracks : List AudioTrack}
    {entries : List ToCEntry} {rs : List ToCAudioSegmentSequence}
    (hnd : (tracks.map AudioTrack.href).Nodup)
    (hmem : ∀ e ∈ entries, (trackIndexByHref tracks e.track_href).isSome)
    (hchain : List.Chain' (entryPosLE tracks) entries)
    (hrs : audio_segments_for_all_toc_entries entries tracks = some rs)
    {i : Nat} {rE rF : ToCAudioSegmentSequence} {sE sF : AudioSegment}
    (hrE : rs[i]? = some rE) (hrF : rs[i + 1]? = some rF)
    (hsE : rE.audio_segments.getLast? = some sE)
    (hsF : rF.audio_segments.head? = some sF)
    (hsame : sE.track = sF.track) :
    sE.end_ = sF.start := by
  have hmapM : (entryPairs entries).mapM
      (fun p => audio_segments_for_toc_entry p.1 p.2 tracks) = some rs := by
    cases entries with
    | nil => exact absurd hrs (by simp [audio_segments_for_all_toc_entries])
    | cons a as => exact hrs
  have hlen : rs.length = entries.length := by
    rw [mapM_length hmapM, entryPairs_length]
  have hiE : i < entries.length := by
    by_contra hlt
    push_neg at hlt
    rw [List.getElem?_eq_none (by omega)] at hrE
    exact Option.noConfusion hrE
  have hiF : i + 1 < entries.length := by
    by_contra hlt
    push_neg at hlt
    rw [List.getElem?_eq_none (by omega)] at hrF
    exact Option.noConfusion hrF
  have hgetE : entries[i]? = some entries[i] := List.getElem?_eq_getElem hiE
  have hgetF : entries[i + 1]? = some entries[i + 1] :=
    List.getElem?_eq_getElem hiF
  have hpairE : (entryPairs entries)[i]? = some (entries[i], some entries[i + 1]) := by
    rw [entryPairs_get hgetE, hgetF]
  have hpairF : (entryPairs entries)[i + 1]?
      = some (entries[i + 1], entries[i + 1 + 1]?) := entryPairs_get hgetF
  obtain ⟨yE, hyE, hfyE⟩ := mapM_get hmapM hpairE
  obtain ⟨yF, hyF, hfyF⟩ := mapM_get hmapM hpairF
  have hyErE : yE = rE := Option.some.inj (hyE.symm.trans hrE)
  have hyFrF : yF = rF := Option.some.inj (hyF.symm.trans hrF)
  subst hyErE
  subst hyFrF
  obtain ⟨ie, hEi⟩ := Option.isSome_iff_exists.mp
    (hmem entries[i] (List.getElem?_mem hgetE))
  obtain ⟨jf, hFi⟩ := Option.isSome_iff_exists.mp
    (hmem entries[i + 1] (List.getElem?_mem hgetF))
  have hEF : entryPosLE tracks entries[i] entries[i + 1] := by
    have hc := List.chain'_iff_get.mp hchain i (by omega)
    simpa [List.get_eq_getElem] using hc
  have hpos : ie < jf ∨ (ie = jf ∧
      (entries[i]).track_offset ≤ (entries[i + 1]).track_offset) := by
    unfold entryPosLE at hEF
    rw [hEi, hFi] at hEF
    simpa using hEF
  exact adjacency_pair hnd hEi hFi hpos hfyE hfyF hsE hsF hsame

/-- Witness: the adjacency invariant on the concrete two-track manifest;
the first entry's single segment ends at offset 4 of track `a`, exactly
where the second entry's first segment starts. -/
theorem claim_C8_adjacency_invariant_witness :
    (AudioSegment.mk exTrackA 0 4 ((4 : Int) : Rat)).end_
      = (AudioSegment.mk exTrackA 4 10 exTrackA.actual_duration).start :=
  @claim_C8_adjacency_invariant exManifest1.reading_order
    exManifest1.toc_in_playback_order
    [⟨.mk "a#t=0" "Chapter 1" [.mk "a#t=4" "Section 1.1" []],
        [⟨exTrackA, 0, 4, ((4 : Int) : Rat)⟩]⟩,
      ⟨.mk "a#t=4" "Section 1.1" [],
        [⟨exTrackA, 4, 10, exTrackA.actual_duration⟩,
          ⟨exTrackB, 0, 5, ((5 : Int) : Rat)⟩]⟩,
      ⟨.mk "b#t=5" "Chapter 2" [],
        [⟨exTrackB, 5, 20, exTrackB.actual_duration⟩]⟩]
    (by decide) (by decide)
    (entriesNonDecreasing_iff_chain.mp (by decide))
    (by rfl) 0
    ⟨.mk "a#t=0" "Chapter 1" [.mk "a#t=4" "Section 1.1" []],
      [⟨exTrackA, 0, 4, ((4 : Int) : Rat)⟩]⟩
    ⟨.mk "a#t=4" "Section 1.1" [],
      [⟨exTrackA, 4, 10, exTrackA.actual_duration⟩,
        ⟨exTrackB, 0, 5, ((5 : Int) : Rat)⟩]⟩
    ⟨exTrackA, 0, 4, ((4 : Int) : Rat)⟩
    ⟨exTrackA, 4, 10, exTrackA.actual_duration⟩
    rfl rfl rfl rfl rfl

theorem c10_ends_agree {tracks : List AudioTrack} {e : ToCEntry}
    (n : Option ToCEntry) {ie : Int}
    (hE : trackIndexByHref tracks e.track_href = some ie) :
    get_track_sequence_end e n tracks ie
      = (_toc_end_boundaries e n tracks).map (fun b => (b.1, b.2.1)) := by
  cases n with
  | none =>
    unfold get_track_sequence_end _toc_end_boundaries
    cases hg : pyGet tracks ((tracks.length : Int) - 1) with
    | none => simp [hg]
    | some t => simp [hg]
  | some nxt =>
    unfold get_track_sequence_end _toc_end_boundaries
    by_cases hsame : e.track_href = nxt.track_href
    · have hnx : trackIndexByHref tracks nxt.track_href = some ie := by
        rw [← hsame]; exact hE
      simp [hsame, hnx]
    · by_cases hz : nxt.track_offset = 0
      · have hcond : ¬ (e.track_href = nxt.track_href ∨ nxt.track_offset ≠ 0) := by
          push_neg
          exact ⟨hsame, hz⟩
        cases hj : trackIndexByHref tracks nxt.track_href with
        | none => simp [hsame, hz, hcond, hj]
        | some j =>
          cases hp : pyGet tracks (j - 1) with
          | none => simp [hsame, hz, hcond, hj, hp]
          | some t => simp [hsame, hz, hcond, hj, hp]
      · have hcond : e.track_href = nxt.track_href ∨ nxt.track_offset ≠ 0 :=
          Or.inr hz
        cases hj : trackIndexByHref tracks nxt.track_href with
        | none => simp [hsame, hz, hcond, hj]
        | some j => simp [hsame, hz, hcond, hj]

theorem segs_proj_eq (entry : ToCEntry) (tracks : List AudioTrack)
    (fi fo li lo : Int) (loA : Rat) :
    get_track_sequence_segments tracks fi fo li lo
      = (assembleAudioSegments ⟨entry, fi, fo, li, lo, loA⟩ tracks).map
          (fun r => r.audio_segments.map
            (fun s => (⟨s.track, s.start, s.end_⟩ : TrackSegment))) := by
  unfold get_track_sequence_segments assembleAudioSegments
  cases hg : pyGet tracks fi with
  | none => simp [hg]
  | some t1 =>
    by_cases heq : fi = li
    · subst heq
      simp [hg, List.map_map]
    · cases hl : pyGet tracks li with
      | none => simp [hg, hl, heq]
      | some lt => simp [hg, hl, heq, List.map_map]

/-- **C10** Refinement equivalence: for every track list and every
`(entry, nextEntryOrNone)` pair whose entry track reference occurs in the
track list, the boundary computation of `_toc_track_boundaries` (testing
"same track OR nonzero next offset" before the previous-track fallback)
and the differently ordered rule chain of `get_track_sequence` (testing
"same track", then "next offset == 0", then the different-track
nonzero-offset case) produce identical last track indices and end
offsets, and identical `(track, start, end)` segment lists — including
identical failure behaviour. -/
theorem claim_C10_refinement_equivalence {tracks : List AudioTrack}
    {e : ToCEntry} (n : Option ToCEntry) {ie : Int}
    (hE : trackIndexByHref tracks e.track_href = some ie) :
    get_track_sequence_end e n tracks ie
        = (_toc_end_boundaries e n tracks).map (fun b => (b.1, b.2.1))
    ∧ get_track_sequence e n tracks
        = (audio_segments_for_toc_entry e n tracks).map
            (fun r => r.audio_segments.map
              (fun s => (⟨s.track, s.start, s.end_⟩ : TrackSegment))) := by
  have hends := c10_ends_agree n hE
  refine ⟨hends, ?_⟩
  unfold get_track_sequence audio_segments_for_toc_entry _toc_track_boundaries
  cases ht : _toc_end_boundaries e n tracks with
  | none =>
    have hgse : get_track_sequence_end e n tracks ie = none := by
      rw [hends, ht]; rfl
    simp [hE, ht, hgse]
  | some b =>
    obtain ⟨li, lo, loA⟩ := b
    have hgse : get_track_sequence_end e n tracks ie = some (li, lo) := by
      rw [hends, ht]; rfl
    have hsp := segs_proj_eq e tracks ie e.track_offset li lo loA
    simpa [hE, ht, hgse] using hsp

/-- Witness: the refinement equivalence evaluated on the rule-4 scenario
(entry at `a#t=8`, next entry at `b#t=0`, two tracks). -/
theorem claim_C10_refinement_equivalence_witness :
    get_track_sequence_end exEntryA8 (some exEntryB0) [exTrackA, exTrackB] 0
        = (_toc_end_boundaries exEntryA8 (some exEntryB0)
            [exTrackA, exTrackB]).map (fun b => (b.1, b.2.1))
    ∧ get_track_sequence exEntryA8 (some exEntryB0) [exTrackA, exTrackB]
        = (audio_segments_for_toc_entry exEntryA8 (some exEntryB0)
            [exTrackA, exTrackB]).map
            (fun r => r.audio_segments.map
              (fun s => (⟨s.track, s.start, s.end_⟩ : TrackSegment))) :=
  @claim_C10_refinement_equivalence [exTrackA, exTrackB] exEntryA8
    (some exEntryB0) 0 (by rfl)
